import Mathlib

/-!
Verification development for the PPM import resolver
(`src/Resolver-lib/Importresolver.py`, the featureful `Resolver` class, which
the specification designates as canonical).

The Python resolver delegates version and requirement semantics to the
`packaging` library (PEP 440 / PEP 503 / PEP 508); those library functions are
external collaborators of the resolver and are modelled here by Lean
definitions that follow the library's documented behaviour (`Ver`, `vcmp`,
`containsSet`, `canonicalizeName`, ...).  Network, filesystem and wheel-archive
access are abstracted into a `World` record of oracles, exactly at the
boundaries the specification declares as external interfaces.  Everything the
resolver itself computes is translated function-by-function from the source.
-/

namespace PPM

/-! ## PEP 440 version model (packaging.version.Version as used by the resolver)

A release is an epoch, a release-number list, and optional pre/post/dev
segments (`pre` is `(phase, number)` with phases `a < b < rc` encoded `0 < 1 <
2`).  Local version segments are omitted: the resolver never produces them on
the paths modelled here.  Comparison follows `packaging._cmpkey`:
lexicographically by epoch, by the release list with trailing zeros stripped,
then by the pre/post/dev keys. -/

structure Ver where
  epoch : Nat
  release : List Nat
  pre : Option (Nat × Nat)
  post : Option Nat
  dev : Option Nat
deriving DecidableEq, Repr

def natCmp (a b : Nat) : Ordering :=
  if a < b then .lt else if a = b then .eq else .gt

/-- Structural lexicographic comparison of number lists (Python tuple order). -/
def lexCmp : List Nat → List Nat → Ordering
  | [], [] => .eq
  | [], _ :: _ => .lt
  | _ :: _, [] => .gt
  | a :: as, b :: bs => (natCmp a b).then (lexCmp as bs)

/-- Strip trailing zeros, as `packaging._cmpkey` does for the release tuple. -/
def stripTZ (l : List Nat) : List Nat :=
  (l.reverse.dropWhile (fun n => n == 0)).reverse

/-- Release-list comparison: strip trailing zeros, then tuple comparison. -/
def relCmp (a b : List Nat) : Ordering :=
  lexCmp (stripTZ a) (stripTZ b)

/-- Model of `_cmpkey`'s pre-segment key: a dev release with no pre/post segment sorts
before everything, a version with no pre segment sorts after any pre segment,
otherwise the pre pair itself decides. -/
def preKey (v : Ver) : Nat × Nat × Nat :=
  match v.pre with
  | some (p, n) => (1, p, n)
  | none =>
    match v.post, v.dev with
    | none, some _ => (0, 0, 0)
    | _, _ => (2, 0, 0)

/-- Model of `_cmpkey`'s post-segment key: absent sorts first. -/
def postKey (v : Ver) : Nat × Nat :=
  match v.post with
  | none => (0, 0)
  | some k => (1, k)

/-- Model of `_cmpkey`'s dev-segment key: absent sorts last. -/
def devKey (v : Ver) : Nat × Nat :=
  match v.dev with
  | none => (1, 0)
  | some k => (0, k)

def pairCmp (x y : Nat × Nat) : Ordering :=
  (natCmp x.1 y.1).then (natCmp x.2 y.2)

def tripCmp (x y : Nat × Nat × Nat) : Ordering :=
  (natCmp x.1 y.1).then (pairCmp x.2 y.2)

/-- Total comparison of versions, following `packaging._cmpkey`. -/
def vcmp (a b : Ver) : Ordering :=
  (natCmp a.epoch b.epoch).then
    ((relCmp a.release b.release).then
      ((tripCmp (preKey a) (preKey b)).then
        ((pairCmp (postKey a) (postKey b)).then
          (pairCmp (devKey a) (devKey b)))))

def vlt (a b : Ver) : Bool := decide (vcmp a b = .lt)

def vle (a b : Ver) : Bool := decide (vcmp a b ≠ .gt)

def verEq (a b : Ver) : Bool := decide (vcmp a b = .eq)

/-- Model of `Version.is_prerelease`: a dev or pre segment makes a version a prerelease. -/
def isPre (v : Ver) : Bool := v.pre.isSome || v.dev.isSome

/-- Model of `Version.is_postrelease`. -/
def isPost (v : Ver) : Bool := v.post.isSome

/-- Equality of `Version.base_version` (epoch and release only). -/
def baseEq (a b : Ver) : Bool :=
  decide (natCmp a.epoch b.epoch = .eq) && decide (relCmp a.release b.release = .eq)

/-! ### Comparator laws -/

/-- The laws a comparison function needs for sorting arguments: swapping the
arguments swaps the verdict, `eq` is a congruence on the left argument, and
`lt` is transitive. -/
structure LawCmp {α : Type} (c : α → α → Ordering) : Prop where
  symm : ∀ a b, c b a = (c a b).swap
  congL : ∀ a b d, c a b = .eq → c a d = c b d
  ltT : ∀ a b d, c a b = .lt → c b d = .lt → c a d = .lt

theorem then_eq_eq (x y : Ordering) : x.then y = .eq ↔ x = .eq ∧ y = .eq := by
  cases x <;> cases y <;> simp [Ordering.then]

theorem then_eq_lt (x y : Ordering) : x.then y = .lt ↔ x = .lt ∨ (x = .eq ∧ y = .lt) := by
  cases x <;> cases y <;> simp [Ordering.then]

theorem then_swap (x y : Ordering) : (x.then y).swap = x.swap.then y.swap := by
  cases x <;> cases y <;> simp [Ordering.then, Ordering.swap]

theorem LawCmp.congR {α : Type} {c : α → α → Ordering} (h : LawCmp c)
    (a b d : α) (hab : c a b = .eq) : c d a = c d b := by
  rw [h.symm a d, h.symm b d, h.congL a b d hab]

theorem LawCmp.onFun {α β : Type} {c : α → α → Ordering} (h : LawCmp c) (f : β → α) :
    LawCmp (fun a b => c (f a) (f b)) := by
  refine ⟨fun a b => h.symm (f a) (f b), fun a b d hab => h.congL _ _ _ hab,
    fun a b d h1 h2 => h.ltT _ _ _ h1 h2⟩

theorem LawCmp.thenComp {α : Type} {c1 c2 : α → α → Ordering}
    (h1 : LawCmp c1) (h2 : LawCmp c2) :
    LawCmp (fun a b => (c1 a b).then (c2 a b)) := by
  constructor
  · intro a b
    rw [h1.symm, h2.symm, then_swap]
  · intro a b d hab
    simp only [then_eq_eq] at hab
    rw [h1.congL a b d hab.1, h2.congL a b d hab.2]
  · intro a b d hab hbd
    simp only [then_eq_lt] at hab hbd ⊢
    rcases hab with hab | ⟨hab, hab2⟩ <;> rcases hbd with hbd | ⟨hbd, hbd2⟩
    · exact Or.inl (h1.ltT a b d hab hbd)
    · exact Or.inl (by rw [← h1.congR b d a hbd]; exact hab)
    · exact Or.inl (by rw [h1.congL a b d hab]; exact hbd)
    · refine Or.inr ⟨by rw [h1.congL a b d hab]; exact hbd, h2.ltT a b d hab2 hbd2⟩

theorem natCmp_eq_lt {a b : Nat} : natCmp a b = .lt ↔ a < b := by
  unfold natCmp; split_ifs <;> simp_all <;> omega

theorem natCmp_eq_eq {a b : Nat} : natCmp a b = .eq ↔ a = b := by
  unfold natCmp; split_ifs <;> simp_all <;> omega

theorem lawCmp_natCmp : LawCmp natCmp := by
  constructor
  · intro a b
    rcases Nat.lt_trichotomy a b with h | h | h
    · have h1 : ¬ b < a := by omega
      have h2 : ¬ b = a := by omega
      simp [natCmp, h, h1, h2, Nat.lt_asymm h, Ordering.swap]
    · subst h
      simp [natCmp, Ordering.swap]
    · have h1 : ¬ a < b := by omega
      have h2 : ¬ a = b := by omega
      simp [natCmp, h, h1, h2, Ordering.swap]
  · intro a b d hab
    rw [natCmp_eq_eq.1 hab]
  · intro a b d h1 h2
    exact natCmp_eq_lt.2 (Nat.lt_trans (natCmp_eq_lt.1 h1) (natCmp_eq_lt.1 h2))

theorem lexCmp_eq_eq : ∀ as bs : List Nat, lexCmp as bs = .eq ↔ as = bs := by
  intro as
  induction as with
  | nil => intro bs; cases bs <;> simp [lexCmp]
  | cons a as ih =>
    intro bs
    cases bs with
    | nil => simp [lexCmp]
    | cons b bs =>
      simp [lexCmp, then_eq_eq, natCmp_eq_eq, ih]

theorem lawCmp_lexCmp : LawCmp lexCmp := by
  constructor
  · intro as
    induction as with
    | nil => intro bs; cases bs <;> simp [lexCmp, Ordering.swap]
    | cons a as ih =>
      intro bs
      cases bs with
      | nil => simp [lexCmp, Ordering.swap]
      | cons b bs =>
        show (natCmp b a).then (lexCmp bs as) = ((natCmp a b).then (lexCmp as bs)).swap
        rw [then_swap, lawCmp_natCmp.symm a b, ih bs]
  · intro as bs d hab
    rw [(lexCmp_eq_eq as bs).1 hab]
  · intro as
    induction as with
    | nil =>
      intro bs d h1 h2
      cases bs with
      | nil => simp [lexCmp] at h1
      | cons b bs =>
        cases d with
        | nil => simp [lexCmp] at h2
        | cons c cs => simp [lexCmp]
    | cons a as ih =>
      intro bs d h1 h2
      cases bs with
      | nil => simp [lexCmp] at h1
      | cons b bs =>
        cases d with
        | nil => simp [lexCmp] at h2
        | cons c cs =>
          simp only [lexCmp, then_eq_lt, natCmp_eq_lt, natCmp_eq_eq] at h1 h2 ⊢
          rcases h1 with h1 | ⟨rfl, h1b⟩ <;> rcases h2 with h2 | ⟨rfl, h2b⟩
          · exact Or.inl (Nat.lt_trans h1 h2)
          · exact Or.inl h1
          · exact Or.inl h2
          · exact Or.inr ⟨rfl, ih bs cs h1b h2b⟩

theorem lawCmp_relCmp : LawCmp relCmp := lawCmp_lexCmp.onFun stripTZ

theorem lawCmp_pairCmp : LawCmp pairCmp :=
  (lawCmp_natCmp.onFun Prod.fst).thenComp (lawCmp_natCmp.onFun Prod.snd)

theorem lawCmp_tripCmp : LawCmp tripCmp :=
  (lawCmp_natCmp.onFun Prod.fst).thenComp (lawCmp_pairCmp.onFun Prod.snd)

theorem lawCmp_vcmp : LawCmp vcmp :=
  (lawCmp_natCmp.onFun Ver.epoch).thenComp
    ((lawCmp_relCmp.onFun Ver.release).thenComp
      ((lawCmp_tripCmp.onFun preKey).thenComp
        ((lawCmp_pairCmp.onFun postKey).thenComp
          (lawCmp_pairCmp.onFun devKey))))

theorem cmp_gt_iff_lt {α : Type} {c : α → α → Ordering} (h : LawCmp c) (a b : α) :
    c a b = .gt ↔ c b a = .lt := by
  have hs := h.symm b a
  constructor
  · intro hg
    rw [hg] at hs
    cases hba : c b a <;> rw [hba] at hs <;> first | rfl | simp [Ordering.swap] at hs
  · intro hl
    rw [hl] at hs
    rw [hs]
    rfl

theorem vlt_asymm {a b : Ver} (h : vlt a b = true) : vlt b a = false := by
  simp only [vlt, decide_eq_true_eq, decide_eq_false_iff_not] at h ⊢
  intro hba
  rw [(cmp_gt_iff_lt lawCmp_vcmp a b).2 hba] at h
  cases h

theorem vlt_negTrans {a b c : Ver} (h1 : vlt b a = false) (h2 : vlt c b = false) :
    vlt c a = false := by
  simp only [vlt, decide_eq_false_iff_not] at h1 h2 ⊢
  intro hca
  cases hba : vcmp b a with
  | lt => exact h1 hba
  | eq => exact h2 (by rw [lawCmp_vcmp.congR b a c hba]; exact hca)
  | gt =>
    have hab : vcmp a b = .lt := (cmp_gt_iff_lt lawCmp_vcmp b a).1 hba
    exact h2 (lawCmp_vcmp.ltT c a b hca hab)

theorem vle_of_not_vlt {a b : Ver} (h : vlt b a = false) : vle a b = true := by
  simp only [vlt, decide_eq_false_iff_not] at h
  simp only [vle, decide_eq_true_eq]
  intro hab
  exact h ((cmp_gt_iff_lt lawCmp_vcmp a b).1 hab)

/-! ## Stable sorting (Python `sorted` / `list.sort`)

`sortBy lt` is a stable insertion sort: an element is inserted after every
element it is not strictly greater than, which reproduces the stable ascending
order of Python's sort. -/

def insBy {α : Type} (lt : α → α → Bool) (a : α) : List α → List α
  | [] => [a]
  | b :: bs => if lt b a then b :: insBy lt a bs else a :: b :: bs

def sortBy {α : Type} (lt : α → α → Bool) : List α → List α
  | [] => []
  | a :: as => insBy lt a (sortBy lt as)

theorem mem_insBy {α : Type} (lt : α → α → Bool) (a x : α) :
    ∀ l, x ∈ insBy lt a l ↔ x = a ∨ x ∈ l := by
  intro l
  induction l with
  | nil => simp [insBy]
  | cons b bs ih =>
    simp only [insBy]
    by_cases hb : lt b a = true
    · rw [if_pos hb]
      simp only [List.mem_cons, ih]
      tauto
    · rw [if_neg hb]
      simp only [List.mem_cons]

theorem mem_sortBy {α : Type} (lt : α → α → Bool) (x : α) :
    ∀ l, x ∈ sortBy lt l ↔ x ∈ l := by
  intro l
  induction l with
  | nil => simp [sortBy]
  | cons a as ih => simp [sortBy, mem_insBy, ih]

/-- Adjacent-pair chains, used to state sortedness of `sortBy`. -/
def ChainB {α : Type} (R : α → α → Prop) : List α → Prop
  | [] => True
  | [_] => True
  | a :: b :: t => R a b ∧ ChainB R (b :: t)

theorem chainB_cons {α : Type} {R : α → α → Prop} (x : α) (l : List α) :
    ChainB R (x :: l) ↔ (∀ y, l.head? = some y → R x y) ∧ ChainB R l := by
  cases l with
  | nil => simp [ChainB]
  | cons c cs => simp [ChainB]

theorem chainB_insBy {α : Type} (lt : α → α → Bool)
    (asym : ∀ a b, lt a b = true → lt b a = false) (a : α) :
    ∀ l, ChainB (fun x y => lt y x = false) l →
      ChainB (fun x y => lt y x = false) (insBy lt a l) := by
  intro l
  induction l with
  | nil => intro _; simp [insBy, ChainB]
  | cons b bs ih =>
    intro hch
    rw [chainB_cons] at hch
    simp only [insBy]
    by_cases hb : lt b a = true
    · rw [if_pos hb]
      rw [chainB_cons]
      refine ⟨?_, ih hch.2⟩
      intro y hy
      cases bs with
      | nil =>
        simp [insBy] at hy
        subst hy
        exact asym b a hb
      | cons c cs =>
        simp only [insBy] at hy
        by_cases hc : lt c a = true
        · rw [if_pos hc] at hy
          simp only [List.head?] at hy
          injection hy with hy
          subst hy
          exact hch.1 c rfl
        · rw [if_neg hc] at hy
          simp only [List.head?] at hy
          injection hy with hy
          subst hy
          exact asym b a hb
    · rw [if_neg hb]
      rw [chainB_cons]
      refine ⟨?_, by rw [chainB_cons]; exact hch⟩
      intro y hy
      simp only [List.head?] at hy
      injection hy with hy
      subst hy
      simpa using hb

theorem chainB_sortBy {α : Type} (lt : α → α → Bool)
    (asym : ∀ a b, lt a b = true → lt b a = false) :
    ∀ l, ChainB (fun x y => lt y x = false) (sortBy lt l) := by
  intro l
  induction l with
  | nil => simp [sortBy, ChainB]
  | cons a as ih => exact chainB_insBy lt asym a _ ih

theorem chainB_getLast {α : Type} {R : α → α → Prop}
    (hrefl : ∀ x, R x x) (htr : ∀ x y z, R x y → R y z → R x z) :
    ∀ l m, ChainB R l → l.getLast? = some m → ∀ x ∈ l, R x m := by
  intro l
  induction l with
  | nil => intro m _ h; cases h
  | cons a t ih =>
    intro m hch hlast x hx
    cases t with
    | nil =>
      simp [List.getLast?] at hlast
      simp at hx
      subst hlast
      subst hx
      exact hrefl x
    | cons b t' =>
      rw [List.getLast?_cons_cons] at hlast
      rw [chainB_cons] at hch
      rcases List.mem_cons.1 hx with rfl | hx'
      · have hab : R x b := hch.1 b rfl
        have hbm : R b m := ih m hch.2 hlast b (List.mem_cons_self b t')
        exact htr x b m hab hbm
      · exact ih m hch.2 hlast x hx'

theorem lastMem {α : Type} : ∀ (l : List α) (a : α), l.getLast? = some a → a ∈ l := by
  intro l
  induction l with
  | nil => intro a h; cases h
  | cons x t ih =>
    intro a h
    cases t with
    | nil =>
      simp [List.getLast?] at h
      simp [h]
    | cons b t' =>
      rw [List.getLast?_cons_cons] at h
      exact List.mem_cons.2 (Or.inr (ih a h))

theorem sortBy_vlt_getLast (l : List Ver) (m : Ver)
    (h : (sortBy vlt l).getLast? = some m) :
    ∀ x ∈ sortBy vlt l, vle x m = true := by
  have hrefl : ∀ x : Ver, vlt x x = false := by
    intro x
    by_cases hx : vlt x x = true
    · have := vlt_asymm hx
      rw [hx] at this
      cases this
    · simpa using hx
  intro x hx
  apply vle_of_not_vlt
  exact chainB_getLast (R := fun x y => vlt y x = false) hrefl
    (fun x y z h1 h2 => vlt_negTrans h1 h2)
    (sortBy vlt l) m (chainB_sortBy vlt (fun a b => vlt_asymm) l) h x hx

/-! ## Specifier and marker model (packaging.specifiers / packaging.markers)

Operators `~=` and `===` never occur on the resolver paths modelled here and
are not part of the operator type.  A PEP 508 marker is modelled by its source
text together with the outcome of evaluating it against the resolver's fixed
startup environment snapshot: `Except.error` models an evaluation that raises,
which `marker_allows` maps to `False` exactly as the `try/except` in the
source does. -/

inductive SpecOp where
  | lt | le | gt | ge | eq | ne
deriving DecidableEq, Repr

structure Specifier where
  op : SpecOp
  ver : Ver
deriving DecidableEq, Repr

/-- One specifier's operator comparison (`packaging.specifiers.Specifier`),
with the pre/post-release exclusions of `<` and `>`. -/
def opSatisfied (s : Specifier) (v : Ver) : Bool :=
  match s.op with
  | .eq => verEq v s.ver
  | .ne => !(verEq v s.ver)
  | .le => vle v s.ver
  | .ge => !(vlt v s.ver)
  | .lt => vlt v s.ver && !(isPre v && !(isPre s.ver) && baseEq v s.ver)
  | .gt => decide (vcmp v s.ver = .gt) && !(isPost v && !(isPost s.ver) && baseEq v s.ver)

/-- Model of `Specifier.prereleases`: `==`, `>=`, `<=` (and the unmodelled `~=`/`===`)
permit prereleases when their version is itself a prerelease. -/
def specPre (s : Specifier) : Bool :=
  match s.op with
  | .eq | .ge | .le => isPre s.ver
  | _ => false

/-- Model of `SpecifierSet.prereleases` with no explicitly set value: `None` for an
empty set, otherwise whether any member permits prereleases. -/
def specSetPre (specs : List Specifier) : Option Bool :=
  if specs.isEmpty then none else some (specs.any specPre)

/-- Model of `SpecifierSet.contains(v, prereleases=None)`: prereleases are rejected at
the set level unless the set permits them; surviving versions must satisfy
every member operator. -/
def containsSet (specs : List Specifier) (v : Ver) : Bool :=
  let pre := match specSetPre specs with
    | none => false
    | some b => b
  if !pre && isPre v then false
  else specs.all (fun s => opSatisfied s v)

structure EnvMarker where
  text : String
  value : Option Bool
deriving DecidableEq, Repr

structure Req where
  name : String
  specifier : List Specifier
  marker : Option EnvMarker
deriving DecidableEq, Repr

/-- Model of `marker_allows`: absent markers allow; `value = some b` models
`bool(marker.evaluate(env))` and `value = none` models an evaluation that
raises, which the `try/except` in the source absorbs as `False`. -/
def marker_allows : Option EnvMarker → Bool
  | none => true
  | some m =>
    match m.value with
    | some b => b
    | none => false

/-- The `ok(v)` filter inside `preferred_versions`: an empty specifier set
short-circuits to `True`, otherwise `SpecifierSet.contains`. -/
def specifierOk (req : Req) (v : Ver) : Bool :=
  req.specifier.isEmpty || containsSet req.specifier v

/-- Model of `pre_allowed` inside `preferred_versions`:
`req.specifier.prereleases is True`. -/
def preAllowed (req : Req) : Bool :=
  match specSetPre req.specifier with
  | some true => true
  | _ => false

/-- Model of `preferred_versions`: filter by the specifier, then prefer stable versions
unless prereleases are explicitly permitted or no stable survived; the result
is sorted ascending. -/
def preferredVersions (req : Req) (versions : List Ver) : List Ver :=
  if versions.isEmpty then []
  else if (versions.filter (fun v => specifierOk req v)).isEmpty then []
  else if preAllowed req
      || !((versions.filter (fun v => specifierOk req v)).any (fun v => !(isPre v))) then
    sortBy vlt (versions.filter (fun v => specifierOk req v))
  else
    sortBy vlt ((versions.filter (fun v => specifierOk req v)).filter (fun v => !(isPre v)))

/-! ## Claim C3 -/

/-- C3: the set of versions eligible for selection (`preferred_versions`)
includes prereleases only when the requirement's specifier explicitly permits
them (`pre_allowed`) or when no stable version satisfies the specifier; and
when a stable satisfying version exists and prereleases are not explicitly
permitted, only stable versions are eligible. -/
theorem c3_prerelease_gating (req : Req) (versions : List Ver) :
    (∀ v ∈ preferredVersions req versions, isPre v = true →
      preAllowed req = true ∨
        ¬ ∃ s ∈ versions, isPre s = false ∧ specifierOk req s = true) ∧
    ((∃ s ∈ versions, isPre s = false ∧ specifierOk req s = true) →
      preAllowed req = false →
      ∀ v ∈ preferredVersions req versions, isPre v = false) := by
  constructor
  · intro v hv hpre
    simp only [preferredVersions] at hv
    by_cases h0 : versions.isEmpty
    · rw [if_pos h0] at hv
      cases hv
    · rw [if_neg h0] at hv
      by_cases h1 : (versions.filter (fun v => specifierOk req v)).isEmpty
      · rw [if_pos h1] at hv
        cases hv
      · rw [if_neg h1] at hv
        by_cases hc : (preAllowed req
            || !((versions.filter (fun v => specifierOk req v)).any (fun v => !(isPre v)))) = true
        · rw [if_pos hc] at hv
          rw [mem_sortBy] at hv
          cases hpa : preAllowed req
          · right
            rintro ⟨s, hs, hstab, hok⟩
            rw [hpa, Bool.false_or] at hc
            rw [Bool.not_eq_true'] at hc
            have hsv : s ∈ versions.filter (fun v => specifierOk req v) :=
              List.mem_filter.2 ⟨hs, hok⟩
            have hall := List.any_eq_false.1 hc s hsv
            simp [hstab] at hall
          · exact Or.inl rfl
        · rw [if_neg hc] at hv
          rw [mem_sortBy] at hv
          have hstable := (List.mem_filter.1 hv).2
          simp [hpre] at hstable
  · rintro ⟨s, hs, hstab, hok⟩ hpa v hv
    simp only [preferredVersions] at hv
    by_cases h0 : versions.isEmpty
    · rw [if_pos h0] at hv
      cases hv
    · rw [if_neg h0] at hv
      by_cases h1 : (versions.filter (fun v => specifierOk req v)).isEmpty
      · rw [if_pos h1] at hv
        cases hv
      · rw [if_neg h1] at hv
        by_cases hc : (preAllowed req
            || !((versions.filter (fun v => specifierOk req v)).any (fun v => !(isPre v)))) = true
        · rw [hpa, Bool.false_or, Bool.not_eq_true'] at hc
          have hsv : s ∈ versions.filter (fun v => specifierOk req v) :=
            List.mem_filter.2 ⟨hs, hok⟩
          have hall := List.any_eq_false.1 hc s hsv
          simp [hstab] at hall
        · rw [if_neg hc] at hv
          rw [mem_sortBy] at hv
          have hstable := (List.mem_filter.1 hv).2
          simpa using hstable

/-- The spec's prerelease-gating scenario: an unconstrained requirement. -/
def bazReq : Req := { name := "baz", specifier := [], marker := none }

/-- Version `0.9`. -/
def v09 : Ver := { epoch := 0, release := [0, 9], pre := none, post := none, dev := none }

/-- Version `1.0rc1` (`rc` phase encoded 2). -/
def v1rc1 : Ver := { epoch := 0, release := [1, 0], pre := some (2, 1), post := none, dev := none }

/-- Concrete instance of `c3_prerelease_gating`: with `baz-1.0rc1` and
`baz-0.9` on the index and no specifier, the eligible `0.9` is stable. -/
theorem c3_witness : isPre v09 = false :=
  (c3_prerelease_gating bazReq [v1rc1, v09]).2 (by decide) (by decide) v09 (by decide)

/-! ## String helpers

Python's string operations are character-based; the corresponding Lean
definitions work on `String.data` so that every function evaluates by
reduction. -/

/-- Characters the name-canonicalization regex `[-_.]+` collapses. -/
def sepChar (c : Char) : Bool := c == '-' || c == '_' || c == '.'

def canonGo : Bool → List Char → List Char
  | _, [] => []
  | prev, c :: cs =>
    if sepChar c then
      if prev then canonGo true cs else '-' :: canonGo true cs
    else c.toLower :: canonGo false cs

/-- Model of `packaging.utils.canonicalize_name`: lowercase, with runs of `-`, `_`, `.`
collapsed to a single `-` (`re.sub(r"[-_.]+", "-", name).lower()`). -/
def canonicalizeName (s : String) : String := String.mk (canonGo false s.data)

/-- Python `str.lower()` (character-wise). -/
def strLower (s : String) : String := String.mk (s.data.map Char.toLower)

/-- Python `str.rstrip("/")`. -/
def rstripSlash (s : String) : String :=
  String.mk ((s.data.reverse.dropWhile (fun c => c == '/')).reverse)

def splitGo (sep : List Char) : Nat → List Char → List Char → List (List Char)
  | 0, l, acc => [acc.reverse ++ l]
  | _ + 1, [], acc => [acc.reverse]
  | fuel + 1, c :: cs, acc =>
    if List.isPrefixOf sep (c :: cs) then
      acc.reverse :: splitGo sep fuel (List.drop sep.length (c :: cs)) []
    else splitGo sep fuel cs (c :: acc)

/-- Splitting on a non-empty separator substring (Python `str.split(sep)`);
the remaining-length budget makes the recursion structural and is never
exhausted for a non-empty separator. -/
def strSplitOn (s sep : String) : List String :=
  match sep.data with
  | [] => [s]
  | _ :: _ => (splitGo sep.data s.data.length s.data []).map String.mk

/-- The fragment of a URL: everything after the first `#`
(`urllib.parse.urlparse(url).fragment`). -/
def fragmentOf (url : String) : String :=
  match strSplitOn url "#" with
  | [] => ""
  | [_] => ""
  | _ :: rest => String.intercalate "#" rest

/-- Model of `os.path.basename(urllib.parse.urlparse(url).path)`: strip fragment and
query, then take the component after the last `/`. -/
def basenameOfUrl (url : String) : String :=
  let noFrag := match strSplitOn url "#" with
    | [] => ""
    | p :: _ => p
  let noQuery := match strSplitOn noFrag "?" with
    | [] => ""
    | p :: _ => p
  (strSplitOn noQuery "/").getLastD ""

def isHexChar (c : Char) : Bool :=
  c.isDigit || (decide ('a' ≤ c) && decide (c ≤ 'f')) || (decide ('A' ≤ c) && decide (c ≤ 'F'))

/-- One `&`-separated fragment segment matching the hash regex
`(?:^|&)sha256=([0-9a-fA-F]{64})(?:&|$)`. -/
def isShaToken (s : String) : Bool :=
  List.isPrefixOf "sha256=".data s.data
    && (s.data.drop 7).length == 64
    && (s.data.drop 7).all isHexChar

/-- Model of `parse_artifact_hash_from_href`: search the URL fragment for a
`sha256=<64 hex>` token delimited by `&` or the fragment ends; on a match,
return the hex digits lowercased. -/
def parse_artifact_hash_from_href (href : String) : Option String :=
  match (strSplitOn (fragmentOf href) "&").find? isShaToken with
  | some s => some (strLower (String.mk (s.data.drop 7)))
  | none => none

/-- Model of `hashlib.sha256(...).hexdigest()` of a file whose 256-bit digest value is
`n`: the zero-padded 64-character lowercase hex encoding. -/
def hexPad64 (n : Nat) : String :=
  String.mk (((List.replicate 64 '0' ++ Nat.toDigits 16 (n % 2 ^ 256)).reverse.take 64).reverse)

theorem hexPad64_length (n : Nat) : (hexPad64 n).length = 64 := by
  simp only [hexPad64, String.length, List.length_reverse, List.length_take,
    List.length_append, List.length_replicate]
  omega

theorem hexPad64_ne_empty (n : Nat) : (hexPad64 n == "") = false := by
  have h := hexPad64_length n
  by_cases he : hexPad64 n = ""
  · rw [he] at h
    simp [String.length] at h
  · simpa using he

/-! ## Artifacts, tags and locks -/

structure Tag where
  interp : String
  abi : String
  plat : String
deriving DecidableEq, Repr

/-- Model of `str(t)` for a compatibility tag. -/
def tagStr (t : Tag) : String := t.interp ++ "-" ++ t.abi ++ "-" ++ t.plat

/-- The `Artifact` dataclass.  The source stores the version as the normalized
string `str(ver)`; the model keeps the parsed value, to which that string
round-trips. -/
structure Artifact where
  filename : String
  url : String
  sha256 : String
  version : Ver
  py_tag : Option String
  abi_tag : Option String
  plat_tag : Option String
  is_wheel : Bool
deriving DecidableEq, Repr

/-- The `PackageLock` dataclass. -/
structure PackageLock where
  name : String
  version : Ver
  markers : Option String
  artifacts : List Artifact
deriving DecidableEq, Repr

/-- Model of `best_record_tag`: the first environment tag contained in the wheel's tag
set, as a triple; all-`None` when no tag matches. -/
def best_record_tag (tags : List Tag) (envOrder : List Tag) :
    Option String × Option String × Option String :=
  match envOrder.find? (fun t => tags.contains t) with
  | some t => (some t.interp, some t.abi, some t.plat)
  | none => (none, none, none)

/-- Model of `{str(t): i for i, t in enumerate(env_order)}.get(s)`: a Python dict
comprehension keeps the last index for duplicate keys. -/
def lastIdxOf (env : List Tag) (s : String) : Option Nat :=
  ((env.enum.filter (fun p => tagStr p.2 == s)).getLast?).map (fun p => p.1)

/-- The wheel ranking key inside `pick_artifact`: unknown tag sorts last
(9000000), a recorded tag absent from the environment order scores 8000000. -/
def score (env : List Tag) (a : Artifact) : Nat :=
  if a.py_tag.getD "" == "" then 9000000
  else
    match lastIdxOf env (a.py_tag.getD "" ++ "-" ++ a.abi_tag.getD "" ++ "-" ++ a.plat_tag.getD "") with
    | some i => i
    | none => 8000000

/-- Model of `pick_artifact`: stable-sort the wheels by score and take the first;
otherwise take the first sdist in candidate order; otherwise `None`. -/
def pick_artifact (cands : List Artifact) (env : List Tag) : Option Artifact :=
  match sortBy (fun a b => decide (score env a < score env b)) (cands.filter (fun c => c.is_wheel)) with
  | w :: _ => some w
  | [] =>
    match cands.filter (fun c => !c.is_wheel) with
    | s :: _ => some s
    | [] => none

theorem pick_artifact_mem (cands : List Artifact) (env : List Tag) (a : Artifact)
    (h : pick_artifact cands env = some a) : a ∈ cands := by
  unfold pick_artifact at h
  cases hw : sortBy (fun a b => decide (score env a < score env b)) (cands.filter (fun c => c.is_wheel)) with
  | cons w ws =>
    rw [hw] at h
    injection h with h
    rw [← h]
    have hmem : w ∈ sortBy (fun a b => decide (score env a < score env b))
        (cands.filter (fun c => c.is_wheel)) := by
      rw [hw]
      exact List.mem_cons_self w ws
    rw [mem_sortBy] at hmem
    exact (List.mem_filter.1 hmem).1
  | nil =>
    rw [hw] at h
    cases hs : cands.filter (fun c => !c.is_wheel) with
    | nil => rw [hs] at h; cases h
    | cons s ss =>
      rw [hs] at h
      injection h with h
      rw [← h]
      have hmem : s ∈ cands.filter (fun c => !c.is_wheel) := by
        rw [hs]
        exact List.mem_cons_self s ss
      exact (List.mem_filter.1 hmem).1

/-! ## Claim C6 -/

/-- Character-wise lexicographic order on strings (Python string `<=`). -/
def charsLe : List Char → List Char → Bool
  | [], _ => true
  | _ :: _, [] => false
  | c :: cs, d :: ds =>
    if c.val < d.val then true else if d.val < c.val then false else charsLe cs ds

def strLeB (a b : String) : Bool := charsLe a.data b.data

def sdistA : Artifact :=
  { filename := "a.tar.gz", url := "ua", sha256 := "", version := v09,
    py_tag := none, abi_tag := none, plat_tag := none, is_wheel := false }

def sdistB : Artifact :=
  { filename := "b.tar.gz", url := "ub", sha256 := "", version := v09,
    py_tag := none, abi_tag := none, plat_tag := none, is_wheel := false }

/-- C6 counterexample: in a wheel-free candidate set listing `b.tar.gz` before
`a.tar.gz`, `pick_artifact` returns `b.tar.gz` although `a.tar.gz` has the
least filename, and swapping the arrival order changes the pick — so the pick
is neither by least filename nor independent of listing order. -/
theorem c6_counterexample :
    pick_artifact [sdistB, sdistA] [] = some sdistB ∧
    sdistA ∈ [sdistB, sdistA] ∧
    sdistA.filename ≠ sdistB.filename ∧
    strLeB sdistA.filename sdistB.filename = true ∧
    pick_artifact [sdistB, sdistA] [] ≠ pick_artifact [sdistA, sdistB] [] := by
  decide

/-- C6 amended: when the candidate set has no wheel, the artifact picked is
the first sdist in candidate-list order (`sdists[0]`) — deterministic in the
candidate list, but dependent on listing arrival order. -/
theorem c6_amended (env : List Tag) (c0 : Artifact) (rest : List Artifact)
    (hnw : ∀ c ∈ c0 :: rest, c.is_wheel = false) :
    pick_artifact (c0 :: rest) env = some c0 := by
  have h1 : (c0 :: rest).filter (fun c => c.is_wheel) = [] := by
    rw [List.filter_eq_nil_iff]
    intro a ha
    simp [hnw a ha]
  have h2 : (c0 :: rest).filter (fun c => !c.is_wheel) = c0 :: rest := by
    rw [List.filter_eq_self]
    intro a ha
    simp [hnw a ha]
  unfold pick_artifact
  rw [h1, h2]
  rfl

/-- Concrete instance of `c6_amended`. -/
theorem c6_witness : pick_artifact [sdistB, sdistA] [] = some sdistB :=
  c6_amended [] sdistB [sdistA] (by decide)

/-! ## The resolver

External collaborators — the HTTP listing fetch (already urljoined and
anchor-extracted, `None` modelling a raised exception), `packaging`'s wheel
filename / version / requirement parsers (`None` modelling a parse exception),
the wheel `Requires-Dist` metadata reader, and the 256-bit SHA-256 value of
the cache file for a given cache filename — are collected in a `World`. -/

structure World where
  fetchListing : String → Option (List (String × String))
  parseWheelFilename : String → Option (Ver × List Tag)
  parseVersion : String → Option Ver
  parseRequirement : String → Option Req
  requiresDist : String → List String
  fileHash : String → Nat

/-- The resolver configuration (CLI options the `Resolver` constructor gets). -/
structure Cfg where
  indexUrl : String
  extraIndexes : List String
  envTags : List Tag
  strictHash : Bool
  follow : Bool

/-- Python `.replace("_", "-")` (single-character replacement). -/
def replaceUnderscore (s : String) : String :=
  String.mk (s.data.map (fun c => if c == '_' then '-' else c))

/-- Model of `to_simple_project_url`: `urljoin(index.rstrip("/") + "/", proj + "/")`
for the relative canonical project name is plain concatenation. -/
def to_simple_project_url (index proj : String) : String :=
  rstripSlash index ++ "/" ++ replaceUnderscore (canonicalizeName proj) ++ "/"

/-- Model of `Resolver._search_urls`: primary index first, then the extra indexes. -/
def searchUrls (cfg : Cfg) (project : String) : List String :=
  to_simple_project_url cfg.indexUrl project
    :: cfg.extraIndexes.map (fun e => to_simple_project_url e project)

def strEndsWith (s suff : String) : Bool := List.isSuffixOf suff.data s.data

def strStartsWith (s p : String) : Bool := List.isPrefixOf p.data s.data

/-- The sdist extensions recognized by `_gather_candidates`. -/
def sdistExts : List String := [".tar.gz", ".zip", ".tar.bz2", ".tar.xz"]

/-- The sdist version regex `^<name>-(.+)\.(tar\.gz|zip|tar\.bz2|tar\.xz)$`
(case-insensitive): on a match, group 1 is the original filename with the
`<name>-` head and the extension tail removed; `""` models no match. -/
def sdistVerGuess (reqName filename : String) : String :=
  let lower := strLower filename
  let lname := strLower reqName
  match sdistExts.find? (fun e => strEndsWith lower e) with
  | none => ""
  | some e =>
    if strStartsWith lower (lname ++ "-")
        && decide (filename.data.length > lname.data.length + 1 + e.data.length) then
      String.mk ((filename.data.drop (lname.data.length + 1)).take
        (filename.data.length - lname.data.length - 1 - e.data.length))
    else ""

/-- The fallback guess: `filename.split("-")[1].split(".tar")[0].split(".zip")[0]`
when the filename has at least two `-`-separated parts. -/
def sdistVerFallback (filename : String) : String :=
  match strSplitOn filename "-" with
  | _ :: p1 :: _ =>
    match strSplitOn p1 ".tar" with
    | q :: _ =>
      (match strSplitOn q ".zip" with
       | r :: _ => r
       | [] => "")
    | [] => ""
  | _ => ""

/-- The combined sdist version guess: the regex result, falling back to the
`split("-")` heuristic when the regex does not match. -/
def sdistGuess (reqName filename : String) : String :=
  if sdistVerGuess reqName filename == "" then sdistVerFallback filename
  else sdistVerGuess reqName filename

/-- The body of `_gather_candidates`' listing loop, for one `(href, filename)`
anchor: classify as wheel or sdist, or discard (`None`). -/
def classifyEntry (w : World) (cfg : Cfg) (req : Req) (href filename : String) : Option Artifact :=
  let lower := strLower filename
  if strEndsWith lower ".whl" then
    match w.parseWheelFilename filename with
    | none => none
    | some (ver, tags) =>
      let t3 := best_record_tag tags cfg.envTags
      some { filename := filename, url := href,
             sha256 := (parse_artifact_hash_from_href href).getD "",
             version := ver, py_tag := t3.1, abi_tag := t3.2.1, plat_tag := t3.2.2,
             is_wheel := true }
  else if sdistExts.any (fun e => strEndsWith lower e) then
    if sdistGuess req.name filename == "" then none
    else
      match w.parseVersion (sdistGuess req.name filename) with
      | none => none
      | some vv =>
        some { filename := filename, url := href,
               sha256 := (parse_artifact_hash_from_href href).getD "",
               version := vv, py_tag := none, abi_tag := none, plat_tag := none,
               is_wheel := false }
  else none

/-- Model of `_gather_candidates`: walk the search URLs in order; a failed listing
fetch is absorbed as no records.  The parallel `versions` list of the source
is exactly the `version` field of each candidate, so only the candidate list
is returned. -/
def gatherCandidates (w : World) (cfg : Cfg) (req : Req) : List Artifact :=
  (searchUrls cfg req.name).foldr
    (fun u acc =>
      (match w.fetchListing u with
       | none => []
       | some entries => entries.filterMap (fun e => classifyEntry w cfg req e.1 e.2)) ++ acc)
    []

/-- The fatal error taxonomy of the resolve pass (each `raise SystemExit`
site), plus `fuelOut` marking exhaustion of the recursion-depth budget of the
shallow embedding. -/
inductive RErr where
  | noCandidates
  | noVersions
  | noCompatible
  | strictHash
  | cycle
  | fuelOut
deriving DecidableEq, Repr

/-- The mutable resolver state: the `resolved` insertion-ordered map and the
`seen` set (insertion-ordered, as a Python dict). -/
structure RState where
  resolved : List (String × PackageLock)
  seen : List String
deriving DecidableEq, Repr

/-- The candidate-selection prefix of `_resolve_one`: gather, filter versions
through `preferred_versions`, take the greatest (`versions[-1]`), narrow the
candidates to it, and pick the best artifact. -/
def selectFor (w : World) (cfg : Cfg) (req : Req) : Except RErr Artifact :=
  let candidates := gatherCandidates w cfg req
  if candidates.isEmpty then .error .noCandidates
  else
    match (preferredVersions req (candidates.map (fun c => c.version))).getLast? with
    | none => .error .noVersions
    | some bestV =>
      match pick_artifact (candidates.filter (fun c => verEq c.version bestV)) cfg.envTags with
      | none => .error .noCompatible
      | some chosen => .ok chosen

/-- The transitive loop at the end of `_resolve_one`, parameterized over the
recursive resolution call: parse each `Requires-Dist` line (parse failures
skipped), filter by marker, skip names already resolved, and resolve the rest
in line order. -/
def expandWith (w : World)
    (res : RState → Req → Except RErr (RState × PackageLock)) :
    RState → List String → Except RErr RState
  | st, [] => .ok st
  | st, line :: rest =>
    match w.parseRequirement line with
    | none => expandWith w res st rest
    | some r =>
      if !(marker_allows r.marker) then expandWith w res st rest
      else if (st.resolved.lookup (canonicalizeName r.name)).isSome then
        expandWith w res st rest
      else
        match res st r with
        | .error e => .error e
        | .ok (st1, _) => expandWith w res st1 rest

/-- Model of `Resolver._resolve_one`.  `_download` returns the cache path (the URL
basename) and the digest of the cache file; the digest is the hex encoding of
the file's 256-bit hash value.  The recursion-depth budget `fuel` makes the
recursion structural; exhausting it yields `fuelOut`. -/
def resolveOne (w : World) (cfg : Cfg) : Nat → RState → Req → Except RErr (RState × PackageLock)
  | 0, _, _ => .error .fuelOut
  | fuel + 1, st, req =>
    let n := canonicalizeName req.name
    match st.resolved.lookup n with
    | some pkl => .ok (st, pkl)
    | none =>
      if n ∈ st.seen then .error .cycle
      else
        let st1 : RState := { st with seen := st.seen ++ [n] }
        match selectFor w cfg req with
        | .error e => .error e
        | .ok chosen =>
          let localFile := basenameOfUrl chosen.url
          let digest := hexPad64 (w.fileHash localFile)
          let sha := if chosen.sha256 == "" then digest else chosen.sha256
          if cfg.strictHash && sha == "" then .error .strictHash
          else
            let chosen1 := { chosen with sha256 := sha }
            let pkl : PackageLock :=
              { name := n, version := chosen1.version,
                markers := req.marker.map (fun m => m.text),
                artifacts := [chosen1] }
            let st2 : RState := { st1 with resolved := st1.resolved ++ [(n, pkl)] }
            if cfg.follow && chosen1.is_wheel && marker_allows req.marker then
              match expandWith w (fun st r => resolveOne w cfg fuel st r) st2
                  (w.requiresDist localFile) with
              | .error e => .error e
              | .ok st3 => .ok (st3, pkl)
            else .ok (st2, pkl)

/-- Model of `Resolver.resolve_all`'s seed loop: seeds whose marker does not allow are
skipped entirely. -/
def resolveAllGo (w : World) (cfg : Cfg) (fuel : Nat) : RState → List Req → Except RErr RState
  | st, [] => .ok st
  | st, r :: rs =>
    if marker_allows r.marker then
      match resolveOne w cfg fuel st r with
      | .error e => .error e
      | .ok (st1, _) => resolveAllGo w cfg fuel st1 rs
    else resolveAllGo w cfg fuel st rs

/-- Character-wise lexicographic strict order on strings (Python string `<`). -/
def charsLt : List Char → List Char → Bool
  | [], [] => false
  | [], _ :: _ => true
  | _ :: _, [] => false
  | c :: cs, d :: ds =>
    if c.val < d.val then true else if d.val < c.val then false else charsLt cs ds

def strLtB (a b : String) : Bool := charsLt a.data b.data

/-- Model of `Resolver.resolve_all`: run the seeds from the empty state and emit
`[resolved[k] for k in sorted(resolved.keys())]`. -/
def resolveAll (w : World) (cfg : Cfg) (fuel : Nat) (seeds : List Req) :
    Except RErr (List PackageLock) :=
  match resolveAllGo w cfg fuel { resolved := [], seen := [] } seeds with
  | .error e => .error e
  | .ok st =>
    .ok ((sortBy strLtB (st.resolved.map Prod.fst)).filterMap
      (fun k => st.resolved.lookup k))

/-! ## Concrete worlds used by witnesses and counterexamples -/

def tagPNA : Tag := { interp := "py3", abi := "none", plat := "any" }

def verOne : Ver := { epoch := 0, release := [1, 0], pre := none, post := none, dev := none }

/-- A 64-hex-character sha256 hint advertised by the listing. -/
def hintA : String := "aaaaaaaaaaaaaaaaaaaaaaaaaaaaaaaaaaaaaaaaaaaaaaaaaaaaaaaaaaaaaaaa"

def whlAlpha : String := "alpha-1.0-py3-none-any.whl"

/-- An index whose single listing advertises a sha256 hint that does NOT match
the content of the downloaded file (`fileHash` is 0 everywhere, so every
computed digest is the all-zero hex string). -/
def w1 : World :=
  { fetchListing := fun u =>
      if u == "idx/alpha/" then some [(whlAlpha ++ "#sha256=" ++ hintA, whlAlpha)] else none,
    parseWheelFilename := fun f =>
      if f == whlAlpha then some (verOne, [tagPNA]) else none,
    parseVersion := fun _ => none,
    parseRequirement := fun _ => none,
    requiresDist := fun _ => [],
    fileHash := fun _ => 0 }

def cfg1 : Cfg :=
  { indexUrl := "idx", extraIndexes := [], envTags := [tagPNA],
    strictHash := false, follow := true }

def reqAlpha : Req := { name := "alpha", specifier := [], marker := none }

/-- The artifact `_gather_candidates` builds for `w1`'s single listing entry:
the sha256 field is the listing hint. -/
def alphaArt : Artifact :=
  { filename := whlAlpha, url := whlAlpha ++ "#sha256=" ++ hintA, sha256 := hintA,
    version := verOne, py_tag := some "py3", abi_tag := some "none",
    plat_tag := some "any", is_wheel := true }

def alphaLock : PackageLock :=
  { name := "alpha", version := verOne, markers := none, artifacts := [alphaArt] }

def alphaState : RState := { resolved := [("alpha", alphaLock)], seen := ["alpha"] }

/-! ## Claim C1 -/

instance {α β : Type} [DecidableEq α] [DecidableEq β] : DecidableEq (Except α β) := fun x y =>
  match x, y with
  | .error a, .error b =>
    if h : a = b then isTrue (by rw [h])
    else isFalse (by intro hc; injection hc with hc; exact h hc)
  | .ok a, .ok b =>
    if h : a = b then isTrue (by rw [h])
    else isFalse (by intro hc; injection hc with hc; exact h hc)
  | .error _, .ok _ => isFalse (by intro hc; cases hc)
  | .ok _, .error _ => isFalse (by intro hc; cases hc)

/-- C1 counterexample: `w1` advertises hint `aa…a` while the downloaded cache
file hashes to `00…0`; the pass nonetheless succeeds, emits the lock, and
records the hint — no integrity abort happens and the lock is produced. -/
theorem c1_counterexample :
    resolveAll w1 cfg1 3 [reqAlpha] = .ok [alphaLock] ∧
    alphaLock.artifacts.map (fun a => a.sha256) = [hintA] ∧
    hexPad64 (w1.fileHash (basenameOfUrl alphaArt.url)) ≠ hintA := by
  decide

theorem except_ok_ne_error {α β : Type} (e : α) (x : β) :
    (Except.error e : Except α β) ≠ .ok x := by
  intro h
  cases h

/-- Characterization of a fresh successful `_resolve_one` commit: the lock
entry records the selected artifact with `sha256` updated by
`chosen.sha256 or digest`. -/
theorem resolveOne_ok_new (w : World) (cfg : Cfg) (fuel : Nat) (st : RState) (req : Req)
    (st' : RState) (pkl : PackageLock)
    (hnew : st.resolved.lookup (canonicalizeName req.name) = none)
    (hok : resolveOne w cfg fuel st req = .ok (st', pkl)) :
    ∃ chosen, selectFor w cfg req = .ok chosen ∧
      pkl = { name := canonicalizeName req.name,
              version := chosen.version,
              markers := req.marker.map (fun m => m.text),
              artifacts := [{ chosen with sha256 :=
                if chosen.sha256 == "" then hexPad64 (w.fileHash (basenameOfUrl chosen.url))
                else chosen.sha256 }] } := by
  cases fuel with
  | zero =>
    simp only [resolveOne] at hok
    exact absurd hok (except_ok_ne_error _ _)
  | succ fuel =>
    simp only [resolveOne] at hok
    split at hok
    · rename_i pkl0 heq
      rw [hnew] at heq
      cases heq
    · split at hok
      · exact absurd hok (except_ok_ne_error _ _)
      · split at hok
        · exact absurd hok (except_ok_ne_error _ _)
        · rename_i chosen hsel
          refine ⟨chosen, hsel, ?_⟩
          split at hok
          · rename_i hsha
            rw [if_pos hsha]
            split at hok
            · exact absurd hok (except_ok_ne_error _ _)
            · split at hok
              · split at hok
                · exact absurd hok (except_ok_ne_error _ _)
                · injection hok with hok
                  injection hok with h1 h2
                  exact h2.symm
              · injection hok with hok
                injection hok with h1 h2
                exact h2.symm
          · rename_i hsha
            rw [if_neg hsha]
            split at hok
            · exact absurd hok (except_ok_ne_error _ _)
            · split at hok
              · split at hok
                · exact absurd hok (except_ok_ne_error _ _)
                · injection hok with hok
                  injection hok with h1 h2
                  exact h2.symm
              · injection hok with hok
                injection hok with h1 h2
                exact h2.symm

/-- C1 amended: when the selected artifact carries a non-empty sha256 hint, a
fresh successful resolution records the hint verbatim in the lock entry — the
computed digest is never compared against it and no hash mismatch can abort
the pass (there is no integrity check at resolve time). -/
theorem c1_amended (w : World) (cfg : Cfg) (fuel : Nat) (st : RState) (req : Req)
    (st' : RState) (pkl : PackageLock) (chosen : Artifact)
    (hnew : st.resolved.lookup (canonicalizeName req.name) = none)
    (hsel : selectFor w cfg req = .ok chosen)
    (hhint : (chosen.sha256 == "") = false)
    (hok : resolveOne w cfg fuel st req = .ok (st', pkl)) :
    pkl.artifacts.map (fun a => a.sha256) = [chosen.sha256] := by
  obtain ⟨chosen2, hsel2, hpkl⟩ := resolveOne_ok_new w cfg fuel st req st' pkl hnew hok
  rw [hsel] at hsel2
  injection hsel2 with hc
  subst hc
  rw [hpkl]
  simp [hhint]

/-- Concrete instance of `c1_amended` on the mismatching world `w1`. -/
theorem c1_witness : alphaLock.artifacts.map (fun a => a.sha256) = [alphaArt.sha256] :=
  c1_amended w1 cfg1 2 { resolved := [], seen := [] } reqAlpha alphaState alphaLock alphaArt
    (by decide) (by decide) (by decide) (by decide)

/-! ## Claim C4 -/

theorem preferred_shape (req : Req) (vs : List Ver) :
    preferredVersions req vs = [] ∨ ∃ l, preferredVersions req vs = sortBy vlt l := by
  unfold preferredVersions
  split_ifs
  · exact Or.inl rfl
  · exact Or.inl rfl
  · exact Or.inr ⟨_, rfl⟩
  · exact Or.inr ⟨_, rfl⟩

/-- Inversion of a successful `selectFor`: the chosen artifact is a gathered
candidate whose version equals `versions[-1]` of the preferred list. -/
theorem selectFor_ok (w : World) (cfg : Cfg) (req : Req) (chosen : Artifact)
    (h : selectFor w cfg req = .ok chosen) :
    ∃ bv, (preferredVersions req ((gatherCandidates w cfg req).map (fun c => c.version))).getLast?
        = some bv ∧
      chosen ∈ gatherCandidates w cfg req ∧ verEq chosen.version bv = true := by
  simp only [selectFor] at h
  split at h
  · exact absurd h (except_ok_ne_error _ _)
  · split at h
    · exact absurd h (except_ok_ne_error _ _)
    · rename_i bv hlast
      split at h
      · exact absurd h (except_ok_ne_error _ _)
      · rename_i c hpick
        injection h with h
        subst h
        have hm := pick_artifact_mem _ _ _ hpick
        rw [List.mem_filter] at hm
        exact ⟨bv, hlast, hm.1, hm.2⟩

/-- C4: on a fresh successful resolution, `versions[-1]` of the preferred list
is a member of and an upper bound of the surviving versions, and the committed
lock entry's version equals it. -/
theorem c4_greatest_version (w : World) (cfg : Cfg) (fuel : Nat) (st : RState) (req : Req)
    (st' : RState) (pkl : PackageLock) (bv : Ver)
    (hnew : st.resolved.lookup (canonicalizeName req.name) = none)
    (hok : resolveOne w cfg fuel st req = .ok (st', pkl))
    (hlast : (preferredVersions req ((gatherCandidates w cfg req).map (fun c => c.version))).getLast?
      = some bv) :
    bv ∈ preferredVersions req ((gatherCandidates w cfg req).map (fun c => c.version)) ∧
    (∀ v ∈ preferredVersions req ((gatherCandidates w cfg req).map (fun c => c.version)),
      vle v bv = true) ∧
    verEq pkl.version bv = true := by
  obtain ⟨chosen, hsel, hpkl⟩ := resolveOne_ok_new w cfg fuel st req st' pkl hnew hok
  obtain ⟨bv2, hlast2, hmem, hveq⟩ := selectFor_ok w cfg req chosen hsel
  rw [hlast] at hlast2
  injection hlast2 with hbv
  subst hbv
  refine ⟨lastMem _ _ hlast, ?_, ?_⟩
  · intro v hv
    rcases preferred_shape req ((gatherCandidates w cfg req).map (fun c => c.version)) with
      hshape | ⟨l, hshape⟩
    · rw [hshape] at hlast
      cases hlast
    · rw [hshape] at hlast hv
      exact sortBy_vlt_getLast l bv hlast v hv
  · rw [hpkl]
    exact hveq

/-- Concrete instance of `c4_greatest_version` on `w1`. -/
theorem c4_witness : verEq alphaLock.version verOne = true :=
  (c4_greatest_version w1 cfg1 2 { resolved := [], seen := [] } reqAlpha alphaState alphaLock
    verOne (by decide) (by decide) (by decide)).2.2

/-! ## Resolver invariants -/

theorem strLower_data (s : String) : (strLower s).data = s.data.map Char.toLower := rfl

theorem mk_data (l : List Char) : (String.mk l).data = l := rfl

theorem lookup_none_not_mem {β : Type} (l : List (String × β)) (n : String)
    (h : l.lookup n = none) : n ∉ l.map Prod.fst := by
  induction l with
  | nil => simp
  | cons p t ih =>
    obtain ⟨k, v⟩ := p
    cases hnk : (n == k) with
    | true =>
      simp only [List.lookup, hnk] at h
      cases h
    | false =>
      simp only [List.lookup, hnk] at h
      simp only [List.map_cons, List.mem_cons]
      rintro (rfl | hmem)
      · simp at hnk
      · exact ih h hmem

theorem lookup_isSome_of_mem {β : Type} (l : List (String × β)) (n : String)
    (h : n ∈ l.map Prod.fst) : (l.lookup n).isSome = true := by
  cases hl : l.lookup n with
  | none => exact absurd h (lookup_none_not_mem l n hl)
  | some v => rfl

theorem lookup_mem {β : Type} (l : List (String × β)) (n : String) (v : β)
    (h : l.lookup n = some v) : (n, v) ∈ l := by
  induction l with
  | nil => cases h
  | cons p t ih =>
    obtain ⟨k, b⟩ := p
    cases hnk : (n == k) with
    | true =>
      simp only [List.lookup, hnk] at h
      injection h with h
      have : n = k := by simpa using hnk
      subst this
      subst h
      exact List.mem_cons_self _ _
    | false =>
      simp only [List.lookup, hnk] at h
      exact List.mem_cons.2 (Or.inr (ih h))

/-- Whether a resolve-pass result is the given fatal error. -/
def errIs {α : Type} (e0 : RErr) : Except RErr α → Bool
  | .error e => e == e0
  | .ok _ => false

theorem selectFor_error (w : World) (cfg : Cfg) (req : Req) (e : RErr)
    (h : selectFor w cfg req = .error e) :
    e = .noCandidates ∨ e = .noVersions ∨ e = .noCompatible := by
  simp only [selectFor] at h
  split at h
  · injection h with h
    exact Or.inl h.symm
  · split at h
    · injection h with h
      exact Or.inr (Or.inl h.symm)
    · split at h
      · injection h with h
        exact Or.inr (Or.inr h.symm)
      · exact absurd h.symm (except_ok_ne_error _ _)

theorem parse_hash_ne_empty (href h : String)
    (hp : parse_artifact_hash_from_href href = some h) : (h == "") = false := by
  simp only [parse_artifact_hash_from_href] at hp
  split at hp
  · rename_i s hfind
    injection hp with hp
    have hps := List.find?_some hfind
    simp only [isShaToken, Bool.and_eq_true, beq_iff_eq] at hps
    obtain ⟨⟨hpre, hlen⟩, hhex⟩ := hps
    rw [beq_eq_false_iff_ne]
    intro hc
    rw [← hp] at hc
    have h0 : (strLower (String.mk (List.drop 7 s.data))).data.length = 0 := by
      rw [hc]
      rfl
    rw [strLower_data, mk_data, List.length_map, hlen] at h0
    exact absurd h0 (by decide)
  · cases hp

theorem classify_sha (w : World) (cfg : Cfg) (req : Req) (href fn : String) (a : Artifact)
    (h : classifyEntry w cfg req href fn = some a) :
    a.url = href ∧ a.sha256 = (parse_artifact_hash_from_href href).getD "" := by
  simp only [classifyEntry] at h
  split at h
  · split at h
    · cases h
    · injection h with h
      subst h
      exact ⟨rfl, rfl⟩
  · split at h
    · split at h
      · cases h
      · split at h
        · cases h
        · injection h with h
          subst h
          exact ⟨rfl, rfl⟩
    · cases h

theorem gather_sha (w : World) (cfg : Cfg) (req : Req) :
    ∀ a ∈ gatherCandidates w cfg req,
      a.sha256 = (parse_artifact_hash_from_href a.url).getD "" := by
  unfold gatherCandidates
  generalize searchUrls cfg req.name = us
  induction us with
  | nil =>
    intro a ha
    cases ha
  | cons u t ih =>
    intro a ha
    simp only [List.foldr] at ha
    rw [List.mem_append] at ha
    rcases ha with ha | ha
    · split at ha
      · cases ha
      · rename_i entries hf
        rw [List.mem_filterMap] at ha
        obtain ⟨e, he, hc⟩ := ha
        obtain ⟨hurl, hsha⟩ := classify_sha w cfg req e.1 e.2 a hc
        rw [hurl]
        exact hsha
    · exact ih a ha

/-- The sha256 a lock entry may record: the parsed listing hint when one was
present, otherwise the digest computed over the cache file. -/
def shaSpec (w : World) (a : Artifact) : Prop :=
  a.sha256 = match parse_artifact_hash_from_href a.url with
    | some h => h
    | none => hexPad64 (w.fileHash (basenameOfUrl a.url))

/-- The seen set is exactly the resolved map's key sequence. -/
def InvSR (st : RState) : Prop := st.seen = st.resolved.map Prod.fst

/-- Every committed artifact's sha256 satisfies `shaSpec`. -/
def ShaInv (w : World) (st : RState) : Prop :=
  ∀ p ∈ st.resolved, ∀ a ∈ p.2.artifacts, shaSpec w a

theorem shaSpec_commit (w : World) (chosen : Artifact)
    (hg : chosen.sha256 = (parse_artifact_hash_from_href chosen.url).getD "") :
    shaSpec w { chosen with sha256 :=
      if chosen.sha256 == "" then hexPad64 (w.fileHash (basenameOfUrl chosen.url))
      else chosen.sha256 } := by
  unfold shaSpec
  cases hp : parse_artifact_hash_from_href chosen.url with
  | some hh =>
    have hne := parse_hash_ne_empty chosen.url hh hp
    rw [hp] at hg
    simp only [Option.getD] at hg
    simp [hp, hg, hne]
  | none =>
    rw [hp] at hg
    simp only [Option.getD] at hg
    simp [hp, hg]

/-- The lock entry `_resolve_one` commits for a selected artifact. -/
def commitPkl (w : World) (req : Req) (chosen : Artifact) : PackageLock :=
  { name := canonicalizeName req.name,
    version := chosen.version,
    markers := req.marker.map (fun m => m.text),
    artifacts := [{ chosen with sha256 :=
      if chosen.sha256 == "" then hexPad64 (w.fileHash (basenameOfUrl chosen.url))
      else chosen.sha256 }] }

/-- The state right after the greedy commit in `_resolve_one`. -/
def commitSt (w : World) (st : RState) (req : Req) (chosen : Artifact) : RState :=
  { resolved := st.resolved ++ [(canonicalizeName req.name, commitPkl w req chosen)],
    seen := st.seen ++ [canonicalizeName req.name] }

theorem commit_InvSR (w : World) (st : RState) (req : Req) (chosen : Artifact)
    (h1 : InvSR st) : InvSR (commitSt w st req chosen) := by
  unfold InvSR commitSt
  simp only [List.map_append, List.map_cons, List.map_nil]
  rw [h1]

theorem commit_ShaInv (w : World) (st : RState) (req : Req) (chosen : Artifact)
    (h2 : ShaInv w st)
    (hg : chosen.sha256 = (parse_artifact_hash_from_href chosen.url).getD "") :
    ShaInv w (commitSt w st req chosen) := by
  intro p hp a ha
  simp only [commitSt, List.mem_append, List.mem_singleton] at hp
  rcases hp with hp | rfl
  · exact h2 p hp a ha
  · simp only [commitPkl, List.mem_singleton] at ha
    subst ha
    exact shaSpec_commit w chosen hg

/-- The computed `chosen.sha256 or digest` value is never empty. -/
theorem sha_commit_ne_empty (w : World) (chosen : Artifact) :
    ((if chosen.sha256 == "" then hexPad64 (w.fileHash (basenameOfUrl chosen.url))
      else chosen.sha256) == "") = false := by
  split
  · exact hexPad64_ne_empty _
  · rename_i hne
    simpa using hne

/-- Equation for the main (fresh, unseen, selected) path of `_resolve_one`:
after the `strict_hash` test — which never fires, the recorded sha being
non-empty — the entry is committed and transitives are expanded. -/
theorem resolveOne_eq_main (w : World) (cfg : Cfg) (fuel : Nat) (st : RState) (req : Req)
    (chosen : Artifact)
    (hl : st.resolved.lookup (canonicalizeName req.name) = none)
    (hs : canonicalizeName req.name ∉ st.seen)
    (hsel : selectFor w cfg req = .ok chosen) :
    resolveOne w cfg (fuel + 1) st req =
      (if cfg.follow && chosen.is_wheel && marker_allows req.marker then
        match expandWith w (fun s r => resolveOne w cfg fuel s r) (commitSt w st req chosen)
            (w.requiresDist (basenameOfUrl chosen.url)) with
        | .error e => .error e
        | .ok st3 => .ok (st3, commitPkl w req chosen)
      else .ok (commitSt w st req chosen, commitPkl w req chosen)) := by
  have hns : (if chosen.sha256 = "" then hexPad64 (w.fileHash (basenameOfUrl chosen.url))
      else chosen.sha256) ≠ "" := by
    split
    · intro hc
      have hlen := hexPad64_length (w.fileHash (basenameOfUrl chosen.url))
      rw [hc] at hlen
      exact absurd hlen (by decide)
    · rename_i hne
      exact hne
  simp only [resolveOne, hl, hsel]
  rw [if_neg hs, if_neg (by simp [hns])]
  rfl

/-- Invariant propagation through the transitive loop, for any recursive
resolution call that itself preserves the invariants and never raises the
`cycle` or `strict_hash` errors. -/
theorem expand_invariants (w : World)
    (res : RState → Req → Except RErr (RState × PackageLock))
    (hres : ∀ st req, InvSR st → ShaInv w st →
      errIs .cycle (res st req) = false ∧ errIs .strictHash (res st req) = false ∧
      ∀ out, res st req = .ok out → InvSR out.1 ∧ ShaInv w out.1) :
    ∀ lines st, InvSR st → ShaInv w st →
      errIs .cycle (expandWith w res st lines) = false ∧
      errIs .strictHash (expandWith w res st lines) = false ∧
      ∀ st', expandWith w res st lines = .ok st' → InvSR st' ∧ ShaInv w st' := by
  intro lines
  induction lines with
  | nil =>
    intro st h1 h2
    refine ⟨rfl, rfl, ?_⟩
    intro st' h
    injection h with h
    rw [← h]
    exact ⟨h1, h2⟩
  | cons line rest ih =>
    intro st h1 h2
    cases hr : w.parseRequirement line with
    | none =>
      have heq : expandWith w res st (line :: rest) = expandWith w res st rest := by
        simp only [expandWith, hr]
      rw [heq]
      exact ih st h1 h2
    | some r =>
      by_cases hm : (!(marker_allows r.marker)) = true
      · have heq : expandWith w res st (line :: rest) = expandWith w res st rest := by
          simp only [expandWith, hr]
          rw [if_pos hm]
        rw [heq]
        exact ih st h1 h2
      · by_cases hlk : (st.resolved.lookup (canonicalizeName r.name)).isSome = true
        · have heq : expandWith w res st (line :: rest) = expandWith w res st rest := by
            simp only [expandWith, hr]
            rw [if_neg hm, if_pos hlk]
          rw [heq]
          exact ih st h1 h2
        · cases hro : res st r with
          | error e =>
            have heq : expandWith w res st (line :: rest) = .error e := by
              simp only [expandWith, hr, hro]
              rw [if_neg hm, if_neg hlk]
            rw [heq]
            obtain ⟨hc, hsh, _⟩ := hres st r h1 h2
            rw [hro] at hc hsh
            exact ⟨hc, hsh, fun st' h => by cases h⟩
          | ok out =>
            obtain ⟨st1, pv⟩ := out
            have heq : expandWith w res st (line :: rest) = expandWith w res st1 rest := by
              simp only [expandWith, hr, hro]
              rw [if_neg hm, if_neg hlk]
            rw [heq]
            obtain ⟨_, _, hok⟩ := hres st r h1 h2
            obtain ⟨h1', h2'⟩ := hok (st1, pv) hro
            exact ih st1 h1' h2'

/-- The central safety induction over the recursion budget: starting from a
consistent state, `_resolve_one` never raises the `cycle` error (greedy commit
inserts into the resolved map in the same step that marks a name seen, before
any transitive expansion) nor the `strict_hash` error (the recorded sha256 is
never empty), and preserves both state invariants. -/
theorem resolveOne_invariants (w : World) (cfg : Cfg) :
    ∀ fuel st req, InvSR st → ShaInv w st →
      errIs .cycle (resolveOne w cfg fuel st req) = false ∧
      errIs .strictHash (resolveOne w cfg fuel st req) = false ∧
      ∀ out, resolveOne w cfg fuel st req = .ok out → InvSR out.1 ∧ ShaInv w out.1 := by
  intro fuel
  induction fuel with
  | zero =>
    intro st req h1 h2
    refine ⟨rfl, rfl, ?_⟩
    intro out h
    simp only [resolveOne] at h
    exact absurd h (except_ok_ne_error _ _)
  | succ fuel ih =>
    intro st req h1 h2
    have hexp := expand_invariants w (fun s r => resolveOne w cfg fuel s r)
      (fun st' req' ha hb => ih st' req' ha hb)
    cases hl : st.resolved.lookup (canonicalizeName req.name) with
    | some pkl =>
      have heq : resolveOne w cfg (fuel + 1) st req = .ok (st, pkl) := by
        simp only [resolveOne, hl]
      rw [heq]
      refine ⟨rfl, rfl, ?_⟩
      intro out h
      injection h with h
      rw [← h]
      exact ⟨h1, h2⟩
    | none =>
      by_cases hs : canonicalizeName req.name ∈ st.seen
      · have hsome : (st.resolved.lookup (canonicalizeName req.name)).isSome = true :=
          lookup_isSome_of_mem _ _ (by rw [← h1]; exact hs)
        rw [hl] at hsome
        simp at hsome
      · cases hsel : selectFor w cfg req with
        | error e =>
          have heq : resolveOne w cfg (fuel + 1) st req = .error e := by
            simp only [resolveOne, hl, hsel]
            rw [if_neg hs]
          rw [heq]
          rcases selectFor_error w cfg req e hsel with rfl | rfl | rfl <;>
            exact ⟨rfl, rfl, fun out h => absurd h (except_ok_ne_error _ _)⟩
        | ok chosen =>
          have hg : chosen.sha256 = (parse_artifact_hash_from_href chosen.url).getD "" := by
            obtain ⟨bv, _, hmem, _⟩ := selectFor_ok w cfg req chosen hsel
            exact gather_sha w cfg req chosen hmem
          have hI2 : InvSR (commitSt w st req chosen) := commit_InvSR w st req chosen h1
          have hS2 : ShaInv w (commitSt w st req chosen) := commit_ShaInv w st req chosen h2 hg
          rw [resolveOne_eq_main w cfg fuel st req chosen hl hs hsel]
          split
          · cases hexp2 : expandWith w (fun s r => resolveOne w cfg fuel s r)
                (commitSt w st req chosen) (w.requiresDist (basenameOfUrl chosen.url)) with
            | error e =>
              simp only [hexp2]
              obtain ⟨hc, hsh, _⟩ := hexp (w.requiresDist (basenameOfUrl chosen.url))
                (commitSt w st req chosen) hI2 hS2
              rw [hexp2] at hc hsh
              exact ⟨hc, hsh, fun out h => absurd h (except_ok_ne_error _ _)⟩
            | ok st3 =>
              simp only [hexp2]
              refine ⟨rfl, rfl, ?_⟩
              intro out h
              injection h with h
              rw [← h]
              obtain ⟨_, _, hoks⟩ := hexp (w.requiresDist (basenameOfUrl chosen.url))
                (commitSt w st req chosen) hI2 hS2
              exact hoks st3 hexp2
          · refine ⟨rfl, rfl, ?_⟩
            intro out h
            injection h with h
            rw [← h]
            exact ⟨hI2, hS2⟩

/-- Invariant propagation through the seed loop of `resolve_all`. -/
theorem resolveAllGo_invariants (w : World) (cfg : Cfg) (fuel : Nat) :
    ∀ seeds st, InvSR st → ShaInv w st →
      errIs .cycle (resolveAllGo w cfg fuel st seeds) = false ∧
      errIs .strictHash (resolveAllGo w cfg fuel st seeds) = false ∧
      ∀ st', resolveAllGo w cfg fuel st seeds = .ok st' → InvSR st' ∧ ShaInv w st' := by
  intro seeds
  induction seeds with
  | nil =>
    intro st h1 h2
    refine ⟨rfl, rfl, ?_⟩
    intro st' h
    injection h with h
    rw [← h]
    exact ⟨h1, h2⟩
  | cons r rs ih =>
    intro st h1 h2
    by_cases hm : marker_allows r.marker = true
    · cases hro : resolveOne w cfg fuel st r with
      | error e =>
        have heq : resolveAllGo w cfg fuel st (r :: rs) = .error e := by
          simp only [resolveAllGo, hro]
          rw [if_pos hm]
        rw [heq]
        obtain ⟨hc, hsh, _⟩ := resolveOne_invariants w cfg fuel st r h1 h2
        rw [hro] at hc hsh
        exact ⟨hc, hsh, fun st' h => by cases h⟩
      | ok out =>
        obtain ⟨st1, pv⟩ := out
        have heq : resolveAllGo w cfg fuel st (r :: rs) = resolveAllGo w cfg fuel st1 rs := by
          simp only [resolveAllGo, hro]
          rw [if_pos hm]
        rw [heq]
        obtain ⟨_, _, hok⟩ := resolveOne_invariants w cfg fuel st r h1 h2
        obtain ⟨h1', h2'⟩ := hok (st1, pv) hro
        exact ih st1 h1' h2'
    · have heq : resolveAllGo w cfg fuel st (r :: rs) = resolveAllGo w cfg fuel st rs := by
        simp only [resolveAllGo]
        rw [if_neg hm]
      rw [heq]
      exact ih st h1 h2

/-! ## Claims C7 and C9 -/

/-- C7: during every resolve pass (from the empty state), a name that is seen
but not yet resolved is never re-entered: the fatal `CycleError` branch of
`_resolve_one` is unreachable, because each name is inserted into the resolved
map in the same step that marks it seen, before any transitive expansion. -/
theorem c7_no_cycle_error (w : World) (cfg : Cfg) (fuel : Nat) (seeds : List Req) :
    errIs .cycle (resolveAll w cfg fuel seeds) = false := by
  unfold resolveAll
  cases hgo : resolveAllGo w cfg fuel { resolved := [], seen := [] } seeds with
  | error e =>
    obtain ⟨hc, _, _⟩ := resolveAllGo_invariants w cfg fuel seeds { resolved := [], seen := [] }
      rfl (by intro p hp; cases hp)
    rw [hgo] at hc
    simp only [hgo]
    exact hc
  | ok st =>
    simp only [hgo]
    rfl

/-- C9: after every successful download the recorded sha256 is non-empty (the
64-hex hint or the 64-hex computed digest), so the `strict_hash` fatal branch
is unreachable: a pass never aborts with the strict-hash error. -/
theorem c9_strict_hash_unreachable (w : World) (cfg : Cfg) (fuel : Nat) (seeds : List Req) :
    errIs .strictHash (resolveAll w cfg fuel seeds) = false := by
  unfold resolveAll
  cases hgo : resolveAllGo w cfg fuel { resolved := [], seen := [] } seeds with
  | error e =>
    obtain ⟨_, hsh, _⟩ := resolveAllGo_invariants w cfg fuel seeds { resolved := [], seen := [] }
      rfl (by intro p hp; cases hp)
    rw [hgo] at hsh
    simp only [hgo]
    exact hsh
  | ok st =>
    simp only [hgo]
    rfl

/-! ## Claim C10 -/

/-- C10: every artifact in the emitted lock records, verbatim, the lowercased
sha256 token parsed from its listing href when one was present, and the digest
computed over the downloaded cache file only otherwise. -/
theorem c10_hint_verbatim (w : World) (cfg : Cfg) (fuel : Nat) (seeds : List Req)
    (locks : List PackageLock) (h : resolveAll w cfg fuel seeds = .ok locks) :
    ∀ p ∈ locks, ∀ a ∈ p.artifacts, shaSpec w a := by
  unfold resolveAll at h
  cases hgo : resolveAllGo w cfg fuel { resolved := [], seen := [] } seeds with
  | error e =>
    rw [hgo] at h
    cases h
  | ok st =>
    rw [hgo] at h
    injection h with h
    intro p hp a ha
    rw [← h] at hp
    rw [List.mem_filterMap] at hp
    obtain ⟨k, _, hkp⟩ := hp
    have hpm := lookup_mem _ _ _ hkp
    obtain ⟨_, _, hok⟩ := resolveAllGo_invariants w cfg fuel seeds { resolved := [], seen := [] }
      rfl (by intro q hq; cases hq)
    obtain ⟨_, hS⟩ := hok st hgo
    exact hS (k, p) hpm a ha

/-- Concrete instance of `c10_hint_verbatim` on `w1`: the hint is recorded. -/
theorem c10_witness : shaSpec w1 alphaArt :=
  c10_hint_verbatim w1 cfg1 3 [reqAlpha] [alphaLock] (by decide) alphaLock (by decide)
    alphaArt (by decide)

/-! ## Claim C8 -/

theorem skipGo (w : World) (cfg : Cfg) (fuel : Nat) (post : List Req) (r : Req)
    (hm : marker_allows r.marker = false) :
    ∀ pre st, resolveAllGo w cfg fuel st (pre ++ r :: post) =
      resolveAllGo w cfg fuel st (pre ++ post) := by
  intro pre
  induction pre with
  | nil =>
    intro st
    simp only [List.nil_append, resolveAllGo]
    rw [if_neg (by simp [hm])]
  | cons q qs ih =>
    intro st
    simp only [List.cons_append, resolveAllGo]
    by_cases hq : marker_allows q.marker = true
    · rw [if_pos hq, if_pos hq]
      cases hro : resolveOne w cfg fuel st q with
      | error e => simp only [hro]
      | ok out =>
        obtain ⟨st1, pv⟩ := out
        simp only [hro]
        exact ih st1
    · rw [if_neg hq, if_neg hq]
      exact ih st

/-- C8: a seed requirement whose marker evaluates false — or whose evaluation
raises, which `marker_allows` absorbs as false — is skipped entirely by
`resolve_all`: the pass state and the emitted lock are the same as if the seed
were absent, so it is never resolved, never enters the seen set, and is absent
from the returned lock list. -/
theorem c8_seed_marker_skip (w : World) (cfg : Cfg) (fuel : Nat) (pre post : List Req) (r : Req)
    (hm : marker_allows r.marker = false) :
    (∀ st, resolveAllGo w cfg fuel st (pre ++ r :: post) =
      resolveAllGo w cfg fuel st (pre ++ post)) ∧
    resolveAll w cfg fuel (pre ++ r :: post) = resolveAll w cfg fuel (pre ++ post) := by
  refine ⟨skipGo w cfg fuel post r hm pre, ?_⟩
  unfold resolveAll
  rw [skipGo w cfg fuel post r hm pre]

/-- The spec's marker-excluded requirement, whose evaluation raises in the
fixed environment. -/
def rBad : Req :=
  { name := "winonly", specifier := [],
    marker := some { text := "sys_platform is not linux", value := none } }

/-- Concrete instance of `c8_seed_marker_skip`: appending the excluded seed
does not change the pass. -/
theorem c8_witness :
    resolveAll w1 cfg1 3 [reqAlpha, rBad] = resolveAll w1 cfg1 3 [reqAlpha] :=
  (c8_seed_marker_skip w1 cfg1 3 [reqAlpha] [] rBad rfl).2

/-! ## Claim C2: the generated verifier program

`write_verifier` emits a standalone program embedding the lock; its `verify`
walks every artifact with a mutable `ok` flag.  The host is abstracted as the
set of tag strings (`{str(t) for t in sys_tags()}`) and the cache directory as
a partial map from filename to the 256-bit hash value of the file there
(`None` = file missing). -/

/-- Python truthiness of an optional tag string (`None` and `""` are falsy). -/
def truthy (o : Option String) : Bool := !(o.getD "" == "")

/-- One iteration of the verifier's artifact loop, updating `ok`:  a fully
recorded tag triple absent from the host tags clears `ok`; a non-empty
recorded sha256 whose cache file exists and re-hashes differently clears
`ok`; a missing cache file is only reported. -/
def artStep (tags : List String) (cache : String → Option Nat) (ok : Bool) (a : Artifact) : Bool :=
  let ok1 :=
    if truthy a.py_tag && truthy a.abi_tag && truthy a.plat_tag then
      (if List.contains tags
          (a.py_tag.getD "" ++ "-" ++ a.abi_tag.getD "" ++ "-" ++ a.plat_tag.getD "") then ok
       else false)
    else ok
  if a.sha256 == "" then ok1
  else
    match cache a.filename with
    | some hv => if hexPad64 hv == a.sha256 then ok1 else false
    | none => ok1

/-- The generated verifier's `verify`: exit 0 when the flag survives, else 2. -/
def verifyExit (tags : List String) (cache : String → Option Nat)
    (pkgs : List PackageLock) : Nat :=
  if pkgs.foldl (fun ok p => p.artifacts.foldl (artStep tags cache) ok) true then 0 else 2

/-- The per-artifact verdict the flag accumulates. -/
def artOk (tags : List String) (cache : String → Option Nat) (a : Artifact) : Bool :=
  (if truthy a.py_tag && truthy a.abi_tag && truthy a.plat_tag then
     List.contains tags
       (a.py_tag.getD "" ++ "-" ++ a.abi_tag.getD "" ++ "-" ++ a.plat_tag.getD "")
   else true) &&
  (if a.sha256 == "" then true
   else
     match cache a.filename with
     | some hv => hexPad64 hv == a.sha256
     | none => true)

theorem artStep_eq (tags : List String) (cache : String → Option Nat) (ok : Bool)
    (a : Artifact) : artStep tags cache ok a = (ok && artOk tags cache a) := by
  unfold artStep artOk
  generalize (truthy a.py_tag && truthy a.abi_tag && truthy a.plat_tag) = c1
  generalize List.contains tags
    (a.py_tag.getD "" ++ "-" ++ a.abi_tag.getD "" ++ "-" ++ a.plat_tag.getD "") = c2
  generalize (a.sha256 == "") = c3
  generalize cache a.filename = co
  cases co with
  | none => cases c1 <;> cases c2 <;> cases c3 <;> cases ok <;> rfl
  | some hv =>
    cases hx : (hexPad64 hv == a.sha256) <;>
      cases c1 <;> cases c2 <;> cases c3 <;> cases ok <;> simp [hx]

theorem foldl_artStep (tags : List String) (cache : String → Option Nat) :
    ∀ (l : List Artifact) (ok : Bool),
      l.foldl (artStep tags cache) ok = (ok && l.all (artOk tags cache)) := by
  intro l
  induction l with
  | nil => intro ok; simp
  | cons a t ih =>
    intro ok
    simp only [List.foldl_cons, List.all_cons]
    rw [artStep_eq, ih, Bool.and_assoc]

theorem foldl_pkgStep (tags : List String) (cache : String → Option Nat) :
    ∀ (pkgs : List PackageLock) (ok : Bool),
      pkgs.foldl (fun ok p => p.artifacts.foldl (artStep tags cache) ok) ok =
        (ok && pkgs.all (fun p => p.artifacts.all (artOk tags cache))) := by
  intro pkgs
  induction pkgs with
  | nil => intro ok; simp
  | cons p t ih =>
    intro ok
    simp only [List.foldl_cons, List.all_cons]
    rw [foldl_artStep, ih, Bool.and_assoc]

theorem artOk_iff (tags : List String) (cache : String → Option Nat) (a : Artifact) :
    artOk tags cache a = true ↔
      ((truthy a.py_tag && truthy a.abi_tag && truthy a.plat_tag) = true →
        List.contains tags
          (a.py_tag.getD "" ++ "-" ++ a.abi_tag.getD "" ++ "-" ++ a.plat_tag.getD "") = true) ∧
      (a.sha256 ≠ "" →
        match cache a.filename with
        | some hv => hexPad64 hv = a.sha256
        | none => True) := by
  unfold artOk
  rw [Bool.and_eq_true]
  constructor
  · rintro ⟨h1, h2⟩
    constructor
    · intro hc
      rw [if_pos hc] at h1
      exact h1
    · intro hne
      rw [if_neg (by simpa using hne)] at h2
      cases hcv : cache a.filename with
      | some hv =>
        rw [hcv] at h2
        simpa using h2
      | none => trivial
  · rintro ⟨h1, h2⟩
    constructor
    · split
      · rename_i hc
        exact h1 hc
      · rfl
    · split
      · rfl
      · rename_i hne
        have hne' : a.sha256 ≠ "" := by simpa using hne
        have h2' := h2 hne'
        cases hcv : cache a.filename with
        | some hv =>
          rw [hcv] at h2'
          simp [h2']
        | none => rfl

/-- C2 amended: the generated verifier exits 0 or 2; it exits 0 exactly when
every artifact with a fully recorded tag triple has that triple among the
host's tags, and every artifact with a non-empty recorded sha256 whose cache
file exists re-hashes to the recorded digest.  A missing cache file is only
reported: it never affects the exit code. -/
theorem c2_amended (tags : List String) (cache : String → Option Nat)
    (pkgs : List PackageLock) :
    (verifyExit tags cache pkgs = 0 ∨ verifyExit tags cache pkgs = 2) ∧
    (verifyExit tags cache pkgs = 0 ↔
      ∀ p ∈ pkgs, ∀ a ∈ p.artifacts,
        ((truthy a.py_tag && truthy a.abi_tag && truthy a.plat_tag) = true →
          List.contains tags
            (a.py_tag.getD "" ++ "-" ++ a.abi_tag.getD "" ++ "-" ++ a.plat_tag.getD "") = true) ∧
        (a.sha256 ≠ "" →
          match cache a.filename with
          | some hv => hexPad64 hv = a.sha256
          | none => True)) := by
  unfold verifyExit
  rw [foldl_pkgStep]
  constructor
  · split
    · exact Or.inl rfl
    · exact Or.inr rfl
  · constructor
    · intro h0
      split at h0
      · rename_i hall
        rw [Bool.true_and] at hall
        rw [List.all_eq_true] at hall
        intro p hp a ha
        have := hall p hp
        rw [List.all_eq_true] at this
        exact (artOk_iff tags cache a).1 (this a ha)
      · cases h0
    · intro hall
      have : (pkgs.all (fun p => p.artifacts.all (artOk tags cache))) = true := by
        rw [List.all_eq_true]
        intro p hp
        rw [List.all_eq_true]
        intro a ha
        exact (artOk_iff tags cache a).2 (hall p hp a ha)
      rw [Bool.true_and, this]
      rfl

/-- A lock entry whose cache file is missing (its digest was recorded, its
tag triple was not). -/
def artMiss : Artifact :=
  { filename := "p-1.0-py3-none-any.whl", url := "u", sha256 := hintA,
    version := verOne, py_tag := none, abi_tag := none, plat_tag := none, is_wheel := true }

def pkgMiss : PackageLock :=
  { name := "p", version := verOne, markers := none, artifacts := [artMiss] }

/-- C2 counterexample: with the artifact's cache file missing, the verifier
exits 0, not 2 — the missing-cache report does not clear the ok flag. -/
theorem c2_counterexample :
    verifyExit [] (fun _ => none) [pkgMiss] = 0 ∧
    artMiss.sha256 ≠ "" ∧
    (fun (_ : String) => (none : Option Nat)) artMiss.filename = none := by
  decide

/-- Concrete instance of `c2_amended` at the missing-cache lock. -/
theorem c2_witness : verifyExit [] (fun _ => none) [pkgMiss] = 0 :=
  (c2_amended [] (fun _ => none) [pkgMiss]).2.mpr (by decide)

/-! ## Claim C5: commit order

The claim compares the resolver's commit order with a reference FIFO driver.
`transReqs` is the resolver's own per-requirement expansion: the surviving
transitive requirements of the wheel selected for a requirement, in the order
their `Requires-Dist` lines appear (state-independent, since selection does
not read the resolver state). -/

/-- The surviving transitive requirement list of a line sequence: parseable
lines whose markers allow. -/
def reqsOf (w : World) (lines : List String) : List Req :=
  (lines.filterMap w.parseRequirement).filter (fun r => marker_allows r.marker)

/-- The surviving transitive requirements of the wheel chosen for `req`. -/
def transReqs (w : World) (cfg : Cfg) (req : Req) : List Req :=
  match selectFor w cfg req with
  | .error _ => []
  | .ok chosen =>
    if cfg.follow && chosen.is_wheel && marker_allows req.marker then
      reqsOf w (w.requiresDist (basenameOfUrl chosen.url))
    else []

/-- Modelled from the spec: the reference FIFO driver of the claim — process
requirements first-in-first-out from a seeded queue, commit fresh names, and
append each wheel's surviving transitive requirements to the back of the
queue in line order.  Returns the committed-name sequence. -/
def fifoNames (w : World) (cfg : Cfg) : Nat → List String → List Req → List String
  | 0, committed, _ => committed
  | _ + 1, committed, [] => committed
  | fuel + 1, committed, r :: queue =>
    if canonicalizeName r.name ∈ committed then fifoNames w cfg fuel committed queue
    else fifoNames w cfg fuel (committed ++ [canonicalizeName r.name])
      (queue ++ transReqs w cfg r)

/-- The reference depth-first driver: commit a fresh name, then immediately
visit its surviving transitive requirements in line order, each subtree fully
before the next line. -/
def refVisit (w : World) (cfg : Cfg) : Nat → List String → Req → List String
  | 0, committed, _ => committed
  | fuel + 1, committed, r =>
    if canonicalizeName r.name ∈ committed then committed
    else (transReqs w cfg r).foldl (refVisit w cfg fuel)
      (committed ++ [canonicalizeName r.name])

/-- The depth-first driver over the seed list, with the seed marker gate. -/
def refAll (w : World) (cfg : Cfg) (fuel : Nat) : List String → List Req → List String
  | committed, [] => committed
  | committed, r :: rs =>
    if marker_allows r.marker then refAll w cfg fuel (refVisit w cfg fuel committed r) rs
    else refAll w cfg fuel committed rs

/-- The sequence of canonical names inserted into the resolved map by a
successful pass (`none` when the pass aborts). -/
def commitSeq (w : World) (cfg : Cfg) (fuel : Nat) (seeds : List Req) :
    Option (List String) :=
  match resolveAllGo w cfg fuel { resolved := [], seen := [] } seeds with
  | .error _ => none
  | .ok st => some (st.resolved.map Prod.fst)

def wA5 : String := "a-1.0-py3-none-any.whl"

def wB5 : String := "b-1.0-py3-none-any.whl"

def wC5 : String := "c-1.0-py3-none-any.whl"

def wD5 : String := "d-1.0-py3-none-any.whl"

def reqA5 : Req := { name := "a", specifier := [], marker := none }

def reqB5 : Req := { name := "b", specifier := [], marker := none }

def reqC5 : Req := { name := "c", specifier := [], marker := none }

def reqD5 : Req := { name := "d", specifier := [], marker := none }

/-- A diamond-shaped index: seed `a` requires `b` then `c`, and `b` requires
`d`; every project has one universally compatible wheel. -/
def w5 : World :=
  { fetchListing := fun u =>
      if u == "idx/a/" then some [(wA5, wA5)]
      else if u == "idx/b/" then some [(wB5, wB5)]
      else if u == "idx/c/" then some [(wC5, wC5)]
      else if u == "idx/d/" then some [(wD5, wD5)]
      else none,
    parseWheelFilename := fun f =>
      if f == wA5 || f == wB5 || f == wC5 || f == wD5 then some (verOne, [tagPNA]) else none,
    parseVersion := fun _ => none,
    parseRequirement := fun s =>
      if s == "b" then some reqB5
      else if s == "c" then some reqC5
      else if s == "d" then some reqD5
      else none,
    requiresDist := fun f =>
      if f == wA5 then ["b", "c"] else if f == wB5 then ["d"] else [],
    fileHash := fun _ => 0 }

def cfg5 : Cfg :=
  { indexUrl := "idx", extraIndexes := [], envTags := [tagPNA],
    strictHash := false, follow := true }

/-- C5 counterexample: on the diamond index the resolver commits
`a, b, d, c` (depth-first: `d` right after its parent `b`), while the
claim's FIFO reference driver commits `a, b, c, d`. -/
theorem c5_counterexample :
    commitSeq w5 cfg5 9 [reqA5] = some ["a", "b", "d", "c"] ∧
    fifoNames w5 cfg5 9 [] [reqA5] = ["a", "b", "c", "d"] ∧
    (["a", "b", "d", "c"] : List String) ≠ ["a", "b", "c", "d"] := by
  decide

theorem refVisit_mem (w : World) (cfg : Cfg) :
    ∀ fuel ks (r : Req), canonicalizeName r.name ∈ ks → refVisit w cfg fuel ks r = ks := by
  intro fuel ks r h
  cases fuel with
  | zero => rfl
  | succ fuel =>
    simp only [refVisit]
    rw [if_pos h]

theorem lookup_some_mem_keys {β : Type} (l : List (String × β)) (n : String)
    (h : (l.lookup n).isSome = true) : n ∈ l.map Prod.fst := by
  cases hl : l.lookup n with
  | none =>
    rw [hl] at h
    cases h
  | some v =>
    exact List.mem_map.2 ⟨(n, v), lookup_mem l n v hl, rfl⟩

/-- Simulation of the transitive loop by a reference fold, for any recursive
call simulated by `ref`. -/
theorem simExpand (w : World)
    (res : RState → Req → Except RErr (RState × PackageLock))
    (ref : List String → Req → List String)
    (hres : ∀ st req st' pkl, InvSR st → res st req = .ok (st', pkl) →
      st'.resolved.map Prod.fst = ref (st.resolved.map Prod.fst) req ∧ InvSR st')
    (hrefm : ∀ ks (r : Req), canonicalizeName r.name ∈ ks → ref ks r = ks) :
    ∀ lines st st', InvSR st → expandWith w res st lines = .ok st' →
      st'.resolved.map Prod.fst = (reqsOf w lines).foldl ref (st.resolved.map Prod.fst) ∧
      InvSR st' := by
  intro lines
  induction lines with
  | nil =>
    intro st st' h1 h
    injection h with h
    rw [← h]
    exact ⟨rfl, h1⟩
  | cons line rest ih =>
    intro st st' h1 h
    cases hr : w.parseRequirement line with
    | none =>
      have heq : expandWith w res st (line :: rest) = expandWith w res st rest := by
        simp only [expandWith, hr]
      rw [heq] at h
      have hro : reqsOf w (line :: rest) = reqsOf w rest := by
        simp [reqsOf, List.filterMap_cons, hr]
      rw [hro]
      exact ih st st' h1 h
    | some r =>
      by_cases hm : (!(marker_allows r.marker)) = true
      · have heq : expandWith w res st (line :: rest) = expandWith w res st rest := by
          simp only [expandWith, hr]
          rw [if_pos hm]
        rw [heq] at h
        have hm' : marker_allows r.marker = false := by simpa using hm
        have hro : reqsOf w (line :: rest) = reqsOf w rest := by
          simp [reqsOf, List.filterMap_cons, hr, hm']
        rw [hro]
        exact ih st st' h1 h
      · have hm' : marker_allows r.marker = true := by simpa using hm
        have hro : reqsOf w (line :: rest) = r :: reqsOf w rest := by
          simp [reqsOf, List.filterMap_cons, hr, hm']
        rw [hro]
        by_cases hlk : (st.resolved.lookup (canonicalizeName r.name)).isSome = true
        · have heq : expandWith w res st (line :: rest) = expandWith w res st rest := by
            simp only [expandWith, hr]
            rw [if_neg hm, if_pos hlk]
          rw [heq] at h
          have hmem : canonicalizeName r.name ∈ st.resolved.map Prod.fst :=
            lookup_some_mem_keys _ _ hlk
          simp only [List.foldl_cons]
          rw [hrefm _ r hmem]
          exact ih st st' h1 h
        · cases hres2 : res st r with
          | error e =>
            have heq : expandWith w res st (line :: rest) = .error e := by
              simp only [expandWith, hr, hres2]
              rw [if_neg hm, if_neg hlk]
            rw [heq] at h
            cases h
          | ok out =>
            obtain ⟨st1, pv⟩ := out
            have heq : expandWith w res st (line :: rest) = expandWith w res st1 rest := by
              simp only [expandWith, hr, hres2]
              rw [if_neg hm, if_neg hlk]
            rw [heq] at h
            obtain ⟨hkeys, hinv⟩ := hres st r st1 pv h1 hres2
            simp only [List.foldl_cons]
            rw [← hkeys]
            exact ih st1 st' hinv h

/-- Simulation of `_resolve_one` by the reference depth-first driver: from a
consistent state, a successful resolution produces exactly the reference
driver's committed-name sequence. -/
theorem simOne (w : World) (cfg : Cfg) :
    ∀ fuel st req st' pkl, InvSR st → resolveOne w cfg fuel st req = .ok (st', pkl) →
      st'.resolved.map Prod.fst =
        refVisit w cfg fuel (st.resolved.map Prod.fst) req ∧ InvSR st' := by
  intro fuel
  induction fuel with
  | zero =>
    intro st req st' pkl h1 h
    simp only [resolveOne] at h
    exact absurd h (except_ok_ne_error _ _)
  | succ fuel ih =>
    intro st req st' pkl h1 h
    cases hl : st.resolved.lookup (canonicalizeName req.name) with
    | some pkl0 =>
      have heq : resolveOne w cfg (fuel + 1) st req = .ok (st, pkl0) := by
        simp only [resolveOne, hl]
      rw [heq] at h
      injection h with h
      injection h with h2 h3
      rw [← h2]
      have hmem : canonicalizeName req.name ∈ st.resolved.map Prod.fst :=
        lookup_some_mem_keys _ _ (by rw [hl]; rfl)
      exact ⟨(refVisit_mem w cfg (fuel + 1) _ req hmem).symm, h1⟩
    | none =>
      by_cases hs : canonicalizeName req.name ∈ st.seen
      · have hsome := lookup_isSome_of_mem st.resolved (canonicalizeName req.name)
          (by rw [← h1]; exact hs)
        rw [hl] at hsome
        simp at hsome
      · cases hsel : selectFor w cfg req with
        | error e =>
          have heq : resolveOne w cfg (fuel + 1) st req = .error e := by
            simp only [resolveOne, hl, hsel]
            rw [if_neg hs]
          rw [heq] at h
          cases h
        | ok chosen =>
          have hnmem : canonicalizeName req.name ∉ st.resolved.map Prod.fst :=
            lookup_none_not_mem _ _ hl
          have hI2 := commit_InvSR w st req chosen h1
          have hcommit : (commitSt w st req chosen).resolved.map Prod.fst =
              st.resolved.map Prod.fst ++ [canonicalizeName req.name] := by
            simp [commitSt, List.map_append]
          rw [resolveOne_eq_main w cfg fuel st req chosen hl hs hsel] at h
          have href : refVisit w cfg (fuel + 1) (st.resolved.map Prod.fst) req =
              (transReqs w cfg req).foldl (refVisit w cfg fuel)
                (st.resolved.map Prod.fst ++ [canonicalizeName req.name]) := by
            simp only [refVisit]
            rw [if_neg hnmem]
          rw [href]
          split at h
          · rename_i hfollow
            have htr : transReqs w cfg req =
                reqsOf w (w.requiresDist (basenameOfUrl chosen.url)) := by
              simp only [transReqs, hsel]
              rw [if_pos hfollow]
            cases hexp : expandWith w (fun s r => resolveOne w cfg fuel s r)
                (commitSt w st req chosen) (w.requiresDist (basenameOfUrl chosen.url)) with
            | error e =>
              simp only [hexp] at h
              cases h
            | ok st3 =>
              simp only [hexp] at h
              injection h with h
              injection h with h2 h3
              rw [← h2]
              obtain ⟨hkeys, hinv⟩ := simExpand w _ (refVisit w cfg fuel)
                (fun s r s' p ha hb => ih s r s' p ha hb)
                (refVisit_mem w cfg fuel)
                (w.requiresDist (basenameOfUrl chosen.url)) (commitSt w st req chosen) st3
                hI2 hexp
              refine ⟨?_, hinv⟩
              rw [hkeys, htr, hcommit]
          · rename_i hfollow
            injection h with h
            injection h with h2 h3
            rw [← h2]
            have htr : transReqs w cfg req = [] := by
              simp only [transReqs, hsel]
              rw [if_neg hfollow]
            rw [htr]
            simp only [List.foldl_nil]
            exact ⟨hcommit, hI2⟩

/-- Simulation of the seed loop by the reference driver. -/
theorem simAll (w : World) (cfg : Cfg) (fuel : Nat) :
    ∀ seeds st st', InvSR st → resolveAllGo w cfg fuel st seeds = .ok st' →
      st'.resolved.map Prod.fst = refAll w cfg fuel (st.resolved.map Prod.fst) seeds ∧
      InvSR st' := by
  intro seeds
  induction seeds with
  | nil =>
    intro st st' h1 h
    injection h with h
    rw [← h]
    exact ⟨rfl, h1⟩
  | cons r rs ih =>
    intro st st' h1 h
    by_cases hm : marker_allows r.marker = true
    · cases hro : resolveOne w cfg fuel st r with
      | error e =>
        have heq : resolveAllGo w cfg fuel st (r :: rs) = .error e := by
          simp only [resolveAllGo, hro]
          rw [if_pos hm]
        rw [heq] at h
        cases h
      | ok out =>
        obtain ⟨st1, pv⟩ := out
        have heq : resolveAllGo w cfg fuel st (r :: rs) = resolveAllGo w cfg fuel st1 rs := by
          simp only [resolveAllGo, hro]
          rw [if_pos hm]
        rw [heq] at h
        obtain ⟨hkeys, hinv⟩ := simOne w cfg fuel st r st1 pv h1 hro
        have hra : refAll w cfg fuel (st.resolved.map Prod.fst) (r :: rs) =
            refAll w cfg fuel (refVisit w cfg fuel (st.resolved.map Prod.fst) r) rs := by
          simp only [refAll]
          rw [if_pos hm]
        rw [hra, ← hkeys]
        exact ih st1 st' hinv h
    · have heq : resolveAllGo w cfg fuel st (r :: rs) = resolveAllGo w cfg fuel st rs := by
        simp only [resolveAllGo]
        rw [if_neg hm]
      rw [heq] at h
      have hra : refAll w cfg fuel (st.resolved.map Prod.fst) (r :: rs) =
          refAll w cfg fuel (st.resolved.map Prod.fst) rs := by
        simp only [refAll]
        rw [if_neg hm]
      rw [hra]
      exact ih st st' h1 h

/-- C5 amended: packages are committed to the resolved map in depth-first
order — seeds in order, and after a package is committed its wheel's
surviving transitive requirements are resolved recursively in line order,
each subtree fully before the next line (not FIFO): a successful pass's
committed-name sequence equals the reference depth-first driver `refAll`. -/
theorem c5_amended (w : World) (cfg : Cfg) (fuel : Nat) (seeds : List Req) (st' : RState)
    (h : resolveAllGo w cfg fuel { resolved := [], seen := [] } seeds = .ok st') :
    st'.resolved.map Prod.fst = refAll w cfg fuel [] seeds :=
  (simAll w cfg fuel seeds { resolved := [], seen := [] } st' rfl h).1

/-- Concrete instance of `c5_amended`. -/
theorem c5_witness : alphaState.resolved.map Prod.fst = refAll w1 cfg1 3 [] [reqAlpha] :=
  c5_amended w1 cfg1 3 [reqAlpha] alphaState (by decide)
